import Mathlib

/-!
Integer rasterizer: sphere shader and triangle fill.

Shallow embedding of `vec.h`, `rasterizer_ilum.c` and `rasterizer_lerp.c`.

Conventions of the embedding:

* a value of an unsigned C type is a `Nat`, a value of a signed C type is an `Int`;
* arithmetic in `unsigned int` is reduced modulo `2^32` (`wrapU32`, `subU32`);
* arithmetic in `int32_t` that can leave the 32-bit range is reduced to the signed
  residue (`wrapI32`), the behaviour of two's-complement hardware;
* a conversion to `uint8_t` or `int8_t` keeps the low eight bits (`castU8`, `castI8`);
* a division whose divisor is zero has no value: `cdiv` returns `none`, and every
  function that divides returns an `Option`.
-/

namespace Raster

/-! ## Machine integers -/

/-- Result of an `unsigned int` operation whose exact value is `n`. -/
def wrapU32 (n : Nat) : Nat := n % 4294967296

/-- Subtraction `p - q` in `unsigned int`: it wraps around when `q` exceeds `p`. -/
def subU32 (p q : Nat) : Nat := (p % 4294967296 + (4294967296 - q % 4294967296)) % 4294967296

/-- Result of an `int32_t` operation whose exact value is `n` (signed residue modulo `2^32`). -/
def wrapI32 (n : Int) : Int := (n + 2147483648) % 4294967296 - 2147483648

/-- Conversion of an unsigned value to `uint8_t`. -/
def castU8 (n : Nat) : Nat := n % 256

/-- Conversion of a signed value to `uint8_t`. -/
def castU8OfInt (n : Int) : Nat := (n % 256).toNat

/-- Conversion `(int8_t)` of an integer value: the signed reading of its low eight bits. -/
def castI8 (n : Int) : Int := (n + 128) % 256 - 128

/-- The expression `v & 0xFF` for a signed (two's-complement) `v`: its low eight bits. -/
def and255 (v : Int) : Nat := (v % 256).toNat

/-- Signed C division `a / b`: truncation toward zero; no value when `b` is zero or when the
quotient `INT_MIN / -1` does not fit. -/
def cdiv (a b : Int) : Option Int :=
  if b = 0 ∨ (a = -2147483648 ∧ b = -1) then none else some (Int.tdiv a b)

/-! ## The framebuffer and the pixel loops -/

/-- Contents of the global array `buffer`, by slot. -/
abbrev Buffer := Int → Nat

/-- Assignment `buffer[i] = c` to an array of `size` words; a slot outside the array has no
defined effect. -/
def store (size : Int) (buf : Buffer) (i : Int) (c : Nat) : Option Buffer :=
  if 0 ≤ i ∧ i < size then some (fun j => if j = i then c else buf j) else none

/-- Run `body j` for `count` consecutive values of the loop variable, starting at `j`. -/
def forLoop (body : Int → Buffer → Option Buffer) : Nat → Int → Buffer → Option Buffer
  | 0, _, buf => some buf
  | count + 1, j, buf =>
    match body j buf with
    | none => none
    | some b => forLoop body count (j + 1) b

/-- Loop `for (int j = lo; j < hi; j++) body(j);`. -/
def forRange (lo hi : Int) (body : Int → Buffer → Option Buffer) (buf : Buffer) :
    Option Buffer :=
  forLoop body (hi - lo).toNat lo buf

/-- Two nested pixel loops of a `main`: the outer variable `p` runs over `[olo, ohi)`, the
inner variable `q` over `[ilo, ihi)`, and the body stores the word `pix p q` in the slot
`slot p q` of an array of `size` words. -/
def renderLoops (size : Int) (pix : Int → Int → Option Nat) (slot : Int → Int → Int)
    (olo ohi ilo ihi : Int) (buf : Buffer) : Option Buffer :=
  forRange olo ohi (fun p b =>
    forRange ilo ihi (fun q b2 =>
      match pix p q with
      | none => none
      | some c => store size b2 (slot p q) c) b) buf

/-! ## vec.h -/

/-- Macro `VEC4_X(v) ((v) >> 24)`. -/
def VEC4_X (v : Nat) : Nat := v >>> 24

/-- Macro `VEC4_Y(v) (((v) >> 16) & 0xFF)`. -/
def VEC4_Y (v : Nat) : Nat := (v >>> 16) &&& 0xFF

/-- Macro `VEC4_Z(v) (((v) >> 8) & 0xFF)`. -/
def VEC4_Z (v : Nat) : Nat := (v >>> 8) &&& 0xFF

/-- Macro `VEC4_W(v) ((v) & 0xFF)`. -/
def VEC4_W (v : Nat) : Nat := v &&& 0xFF

/-- Macro `VEC4_I8(x, y, z, w)`: every signed component is masked to eight bits before it is
shifted into place; the word is an `unsigned int`. -/
def VEC4_I8 (x y z w : Int) : Nat :=
  wrapU32 (((and255 x) <<< 24) ||| ((and255 y) <<< 16) ||| ((and255 z) <<< 8) ||| (and255 w))

/-- Macro `VEC4_U8(x, y, z, w) (((x) << 24) | ((y) << 16) | ((z) << 8) | (w))`; the word is an
`unsigned int`. -/
def VEC4_U8 (x y z w : Nat) : Nat :=
  wrapU32 ((x <<< 24) ||| (y <<< 16) ||| (z <<< 8) ||| w)

/-! ## rasterizer_ilum.c: primitives -/

/-- Loop of `isqrt`: `while (y < x){ x = y; y = (x + n / x) >> 1; }` followed by `return x`.
The first argument bounds the number of iterations; `none` is returned when it is used up
or when the division has no value. -/
def isqrtLoop (n : Int) : Nat → Int → Int → Option Int
  | 0, _, _ => none
  | fuel + 1, x, y =>
    if y < x then
      match cdiv n y with
      | none => none
      | some q => isqrtLoop n fuel y (wrapI32 (y + q) >>> (1 : Nat))
    else some x

/-- Function `isqrt` of `rasterizer_ilum.c`. Each iteration strictly decreases `x`, which starts
at `n`, so `n + 1` rounds of the loop are always enough (`isqrt_total`). -/
def isqrt (n : Int) : Option Int :=
  if n ≤ 0 then some 0
  else isqrtLoop n (n.toNat + 1) n (wrapI32 (n + 1) >>> (1 : Nat))

/-- One channel of the plain-integer `lerp_vec4_u8`:
`uint8_t x = A + t * (B - A) / 255;` where `A`, `B` are `unsigned int` and `t` is `uint8_t`, so
that the whole expression is evaluated in `unsigned int`. -/
def lerpChannel (a b t : Nat) : Nat :=
  castU8 (wrapU32 (a + wrapU32 (t * subU32 b a) / 255))

/-- Plain-integer branch (`TEST`) of `lerp_vec4_u8` in `rasterizer_ilum.c`. The factor `t` is the
value of the `uint8_t` parameter. -/
def lerp_vec4_u8 (a b t : Nat) : Nat :=
  let x := lerpChannel (VEC4_X a) (VEC4_X b) t
  let y := lerpChannel (VEC4_Y a) (VEC4_Y b) t
  let z := lerpChannel (VEC4_Z a) (VEC4_Z b) t
  let w := lerpChannel (VEC4_W a) (VEC4_W b) t
  VEC4_U8 x y z w

/-- Plain-integer branch (`TEST`) of `dot3`: the three products are formed in `int` from
`int8_t` operands, so they cannot leave the 32-bit range. -/
def dot3 (a b : Nat) : Int :=
  castI8 (VEC4_X a) * castI8 (VEC4_X b) + castI8 (VEC4_Y a) * castI8 (VEC4_Y b)
    + castI8 (VEC4_Z a) * castI8 (VEC4_Z b)

/-! ## rasterizer_ilum.c: configuration -/

/-- Constant `WIDTH` of `rasterizer_ilum.c`. -/
def WIDTH : Int := 256

/-- Constant `HEIGHT` of `rasterizer_ilum.c`. -/
def HEIGHT : Int := 256

/-- Constant `BACKGROUND_COLOR`. -/
def BACKGROUND_COLOR : Nat := VEC4_U8 15 15 100 0

/-- Constant `SPHERE_COLOR`. -/
def SPHERE_COLOR : Nat := VEC4_U8 200 50 50 0

/-- Constant `SPHERE_RADIUS`. -/
def SPHERE_RADIUS : Int := 80

/-- Constant `LIGHT_DIR`. -/
def LIGHT_DIR : Nat := VEC4_I8 10 (-1) 20 0

/-- Constant `KA`, the ambient floor. -/
def KA : Int := 50

/-! ## rasterizer_ilum.c: main -/

/-- Squared length of a packed signed vector, as `main` computes `light_len2` and `n_len2`:
`(int8_t)VEC4_X(v)*(int8_t)VEC4_X(v) + (int8_t)VEC4_Y(v)*(int8_t)VEC4_Y(v)
 + (int8_t)VEC4_Z(v)*(int8_t)VEC4_Z(v)`. -/
def len2 (v : Nat) : Int :=
  castI8 (VEC4_X v) * castI8 (VEC4_X v) + castI8 (VEC4_Y v) * castI8 (VEC4_Y v)
    + castI8 (VEC4_Z v) * castI8 (VEC4_Z v)

/-- Normalisation step of `main`, written once for the light direction and once for the
surface normal: `len = isqrt(len2)` and then
`VEC4_I8(((int8_t)VEC4_X(v)*127)/len, ((int8_t)VEC4_Y(v)*127)/len, ((int8_t)VEC4_Z(v)*127)/len, 0)`. -/
def normalizeVec (v : Nat) : Option Nat := do
  let len ← isqrt (len2 v)
  let nx ← cdiv (castI8 (VEC4_X v) * 127) len
  let ny ← cdiv (castI8 (VEC4_Y v) * 127) len
  let nz ← cdiv (castI8 (VEC4_Z v) * 127) len
  pure (VEC4_I8 nx ny nz 0)

/-- Unnormalised surface normal of an on-sphere pixel:
`nz = isqrt(R*R - dist2)` and
`n = VEC4_I8((int8_t)((x*127)/R), (int8_t)((y*127)/R), (int8_t)((nz*127)/R), 0)`. -/
def rawNormal (radius x y : Int) : Option Nat := do
  let dist2 := wrapI32 (wrapI32 (x * x) + wrapI32 (y * y))
  let nz ← isqrt (wrapI32 (wrapI32 (radius * radius) - dist2))
  let qx ← cdiv (wrapI32 (x * 127)) radius
  let qy ← cdiv (wrapI32 (y * 127)) radius
  let qz ← cdiv (wrapI32 (nz * 127)) radius
  pure (VEC4_I8 (castI8 qx) (castI8 qy) (castI8 qz) 0)

/-- Lighting of one on-sphere point (normals-debug off):
`dot = dot3(n, light_dir_norm) / 127; if(dot < 0) dot = 0;`
`intensity = (dot * 255) / 127; if(intensity<KA) intensity = KA;`.
The value is the `int32_t` variable `intensity`. -/
def intensityOf (ka : Int) (n light : Nat) : Option Int := do
  let d ← cdiv (dot3 n light) 127
  let dot := if d < 0 then 0 else d
  let i ← cdiv (dot * 255) 127
  pure (if i < ka then ka else i)

/-- The `int32_t` variable `intensity` of an on-sphere pixel, given the normalised light
direction: renormalised surface normal, then the lighting step. -/
def litIntensity (radius ka : Int) (light_dir_norm : Nat) (x y : Int) : Option Int := do
  let n0 ← rawNormal radius x y
  let n ← normalizeVec n0
  intensityOf ka n light_dir_norm

/-- Body of the pixel loops of `main` in `rasterizer_ilum.c` (normals-debug off): the word
assigned to `buffer[(y+HEIGHT/2) * WIDTH + x + WIDTH/2]`. The intensity is converted to the
`uint8_t` parameter of `lerp_vec4_u8` at the call. -/
def pixelColor (radius ka : Int) (light_dir_norm bg color : Nat) (x y : Int) : Option Nat :=
  let dist2 := wrapI32 (wrapI32 (x * x) + wrapI32 (y * y))
  if dist2 ≤ wrapI32 (radius * radius) then do
    let intensity ← litIntensity radius ka light_dir_norm x y
    pure (lerp_vec4_u8 0 color (castU8OfInt intensity))
  else
    pure bg

/-- The intensity of a pixel for a scene given by its radius, ambient floor and
(unnormalised) light direction; the light direction is normalised first, as in `main`. -/
def pixelIntensity (radius ka : Int) (light : Nat) (x y : Int) : Option Int := do
  let light_dir_norm ← normalizeVec light
  litIntensity radius ka light_dir_norm x y

/-- The word of a pixel for a scene given by its constants; the light direction is
normalised first, as in `main`, so a failure there leaves no pixel with a value. -/
def shadePixel (radius ka : Int) (light bg color : Nat) (x y : Int) : Option Nat := do
  let light_dir_norm ← normalizeVec light
  pixelColor radius ka light_dir_norm bg color x y

/-- Intensity at pixel `(x, y)` of the configured sphere scene. -/
def sphereIntensity (x y : Int) : Option Int :=
  pixelIntensity SPHERE_RADIUS KA LIGHT_DIR x y

/-- Word of pixel `(x, y)` of the configured sphere scene, `x` and `y` being the centred
loop variables of `main`. -/
def spherePixel (x y : Int) : Option Nat :=
  shadePixel SPHERE_RADIUS KA LIGHT_DIR BACKGROUND_COLOR SPHERE_COLOR x y

/-- Slot of `buffer` that the sphere loops write for the centred pixel `(x, y)`:
`(y+HEIGHT/2) * WIDTH + x + WIDTH/2`. -/
def sphereSlot (x y : Int) : Int := (y + HEIGHT / 2) * WIDTH + x + WIDTH / 2

/-- Function `main` of `rasterizer_ilum.c` up to the end of the pixel loops: the light
direction is normalised, then `for(int x=-WIDTH/2;x<WIDTH/2;x++)` and
`for(int y=-HEIGHT/2;y<HEIGHT/2;y++)` fill `buffer`, which starts zeroed. The result is the
framebuffer handed to the writer. -/
def main : Option Buffer := do
  let light_dir_norm ← normalizeVec LIGHT_DIR
  renderLoops (HEIGHT * WIDTH)
    (fun x y => pixelColor SPHERE_RADIUS KA light_dir_norm BACKGROUND_COLOR SPHERE_COLOR x y)
    sphereSlot (-WIDTH / 2) (WIDTH / 2) (-HEIGHT / 2) (HEIGHT / 2) (fun _ => 0)

/-! ## rasterizer_lerp.c -/

namespace Lerp

/-- Macro `VEC_X(v) ((v) >> 24)`. -/
def VEC_X (v : Nat) : Nat := v >>> 24

/-- Macro `VEC_Y(v) (((v) >> 16) & 0xFF)`. -/
def VEC_Y (v : Nat) : Nat := (v >>> 16) &&& 0xFF

/-- Macro `VEC_Z(v) (((v) >> 8) & 0xFF)`. -/
def VEC_Z (v : Nat) : Nat := (v >>> 8) &&& 0xFF

/-- Macro `VEC_W(v) ((v) & 0xFF)`. -/
def VEC_W (v : Nat) : Nat := v &&& 0xFF

/-- Macro `VEC4_U8` of `rasterizer_lerp.c`, the same text as in `vec.h`. -/
def VEC4_U8 (x y z w : Nat) : Nat :=
  wrapU32 ((x <<< 24) ||| (y <<< 16) ||| (z <<< 8) ||| w)

/-- Constant `WIDTH` of `rasterizer_lerp.c`. -/
def WIDTH : Int := 256

/-- Constant `HEIGHT` of `rasterizer_lerp.c`. -/
def HEIGHT : Int := 256

/-- Constant `MARGIN`. -/
def MARGIN : Nat := 25

/-- Constant `BACKGROUND_COLOR` of `rasterizer_lerp.c`. -/
def BACKGROUND_COLOR : Nat := VEC4_U8 15 15 100 0

/-- Plain-integer branch (`TEST`) of `lerp_vec4_u8` in `rasterizer_lerp.c`. -/
def lerp_vec4_u8 (a b t : Nat) : Nat :=
  let x := lerpChannel (VEC_X a) (VEC_X b) t
  let y := lerpChannel (VEC_Y a) (VEC_Y b) t
  let z := lerpChannel (VEC_Z a) (VEC_Z b) t
  let w := lerpChannel (VEC_W a) (VEC_W b) t
  VEC4_U8 x y z w

/-- Conversion of an `int` loop variable to `unsigned int`. -/
def castU32OfInt (n : Int) : Nat := (n % 4294967296).toNat

/-- Conversion of an `unsigned int` value to `int32_t`. -/
def castI32 (n : Nat) : Int := wrapI32 n

/-- Variable `denom` of `main`:
`(VEC_Y(v1) - VEC_Y(v2))*(VEC_X(v0) - VEC_X(v2)) + (VEC_X(v2) - VEC_X(v1))*(VEC_Y(v0) - VEC_Y(v2))`,
evaluated in `unsigned int` and stored in an `int32_t`. -/
def denom (v0 v1 v2 : Nat) : Int :=
  castI32 (wrapU32 (wrapU32 (subU32 (VEC_Y v1) (VEC_Y v2) * subU32 (VEC_X v0) (VEC_X v2))
    + wrapU32 (subU32 (VEC_X v2) (VEC_X v1) * subU32 (VEC_Y v0) (VEC_Y v2))))

/-- Variable `w0` of `main`:
`(VEC_Y(v1) - VEC_Y(v2))*(x - VEC_X(v2)) + (VEC_X(v2) - VEC_X(v1))*(y - VEC_Y(v2))`. -/
def w0 (v1 v2 : Nat) (x y : Int) : Int :=
  castI32 (wrapU32 (wrapU32 (subU32 (VEC_Y v1) (VEC_Y v2) * subU32 (castU32OfInt x) (VEC_X v2))
    + wrapU32 (subU32 (VEC_X v2) (VEC_X v1) * subU32 (castU32OfInt y) (VEC_Y v2))))

/-- Variable `w1` of `main`:
`(VEC_Y(v2) - VEC_Y(v0))*(x - VEC_X(v2)) + (VEC_X(v0) - VEC_X(v2))*(y - VEC_Y(v2))`. -/
def w1 (v0 v2 : Nat) (x y : Int) : Int :=
  castI32 (wrapU32 (wrapU32 (subU32 (VEC_Y v2) (VEC_Y v0) * subU32 (castU32OfInt x) (VEC_X v2))
    + wrapU32 (subU32 (VEC_X v0) (VEC_X v2) * subU32 (castU32OfInt y) (VEC_Y v2))))

/-- Variable `w2` of `main`: `denom - w0 - w1` in `int32_t`. -/
def w2 (v0 v1 v2 : Nat) (x y : Int) : Int :=
  wrapI32 (wrapI32 (denom v0 v1 v2 - w0 v1 v2 x y) - w1 v0 v2 x y)

/-- Inside test of `main`:
`(denom > 0 && w0 >= 0 && w1 >= 0 && w2 >= 0) || denom < 0 && w0 <= 0 && w1 <= 0 && w2 <= 0`. -/
def inside (d a b c : Int) : Bool :=
  (decide (d > 0) && decide (a ≥ 0) && decide (b ≥ 0) && decide (c ≥ 0))
    || (decide (d < 0) && decide (a ≤ 0) && decide (b ≤ 0) && decide (c ≤ 0))

/-- Inside test at pixel `(x, y)` for the triangle `v0 v1 v2`. -/
def insideAt (v0 v1 v2 : Nat) (x y : Int) : Bool :=
  inside (denom v0 v1 v2) (w0 v1 v2 x y) (w1 v0 v2 x y) (w2 v0 v1 v2 x y)

/-- Body of the pixel loops of `main` in `rasterizer_lerp.c`, with the plain-integer blend:
the word stored in `buffer[y * WIDTH + x]`. -/
def trianglePixel (v0 v1 v2 c0 c1 c2 : Nat) (x y : Int) : Option Nat :=
  if insideAt v0 v1 v2 x y then do
    let q1 ← cdiv (wrapI32 (w1 v0 v2 x y * 255)) (denom v0 v1 v2)
    let q2 ← cdiv (wrapI32 (w2 v0 v1 v2 x y * 255)) (denom v0 v1 v2)
    let t1 := castU8OfInt q1
    let t2 := castU8OfInt q2
    let c01 := lerp_vec4_u8 c0 c1 t1
    pure (lerp_vec4_u8 c01 c2 t2)
  else
    pure BACKGROUND_COLOR

/-- Vertex `v0` of `main`. -/
def v0 : Nat := VEC4_U8 MARGIN (255 - MARGIN) 0 0

/-- Vertex `v2` of `main`. -/
def v2 : Nat := VEC4_U8 127 MARGIN 0 0

/-- Vertex `v1` of `main`. -/
def v1 : Nat := VEC4_U8 (255 - MARGIN) (255 - MARGIN) 0 0

/-- Colour `c0` of `main`. -/
def c0 : Nat := VEC4_U8 255 0 0 0

/-- Colour `c1` of `main`. -/
def c1 : Nat := VEC4_U8 0 255 0 0

/-- Colour `c2` of `main`. -/
def c2 : Nat := VEC4_U8 0 0 255 0

/-- Framebuffer word at pixel `(x, y)` of the configured triangle scene. -/
def scenePixel (x y : Int) : Option Nat := trianglePixel v0 v1 v2 c0 c1 c2 x y

/-- Slot of `buffer` that the triangle loops write for pixel `(x, y)`: `y * WIDTH + x`. -/
def slot (x y : Int) : Int := y * WIDTH + x

/-- Function `main` of `rasterizer_lerp.c` up to the end of the pixel loops, with the
plain-integer blend: `for (int y = 0; y < HEIGHT; y++)` and `for (int x = 0; x < WIDTH; x++)`
fill `buffer`, which starts zeroed. -/
def main : Option Buffer :=
  renderLoops (HEIGHT * WIDTH) (fun y x => scenePixel x y) (fun y x => slot x y)
    0 HEIGHT 0 WIDTH (fun _ => 0)

end Lerp

/-! ## Reference formulas taken from the specification -/

/-- Channel formula of the specification for the blend: `a.c + t*(b.c - a.c)/255` over the
unbounded signed integers, with C integer division, then reduced to 8 bits. -/
def lerpChannelSpec (a b t : Int) : Int := (a + Int.tdiv (t * (b - a)) 255) % 256

/-- Bits `[lo+7:lo]` of a word, read as a two's-complement 8-bit value. -/
def signedByte (v lo : Nat) : Int :=
  if (v / 2 ^ lo) % 256 < 128 then ((v / 2 ^ lo) % 256 : Nat) else ((v / 2 ^ lo) % 256 : Nat) - 256

/-- Dot product of the specification: the signed readings of bits `[31:24]`, `[23:16]`
and `[15:8]` multiplied pairwise and added. -/
def dot3Spec (a b : Nat) : Int :=
  signedByte a 24 * signedByte b 24 + signedByte a 16 * signedByte b 16
    + signedByte a 8 * signedByte b 8

/-- Value `v` lies strictly between `p` and `q`, whichever of the two is the smaller. -/
def strictlyBetween (p q v : Nat) : Bool := decide (min p q < v) && decide (v < max p q)

/-- Every channel of `c` is within one unit of the same channel of `d`. -/
def withinOne (c d : Nat) : Bool :=
  decide (Int.natAbs ((VEC4_X c : Int) - VEC4_X d) ≤ 1)
    && decide (Int.natAbs ((VEC4_Y c : Int) - VEC4_Y d) ≤ 1)
    && decide (Int.natAbs ((VEC4_Z c : Int) - VEC4_Z d) ≤ 1)
    && decide (Int.natAbs ((VEC4_W c : Int) - VEC4_W d) ≤ 1)

/-! ## Inline-asm branches of the primitives -/

/-- Conversion of the `uint8_t` variable `t` to the `vec4_u8_t` return value in the build
without `TEST`, where `uint8_t` is `typedef char`: zero extension of the low eight bits of the
register when `char` is unsigned, sign extension when it is signed. -/
def charToWord (charIsSigned : Bool) (r : Nat) : Nat :=
  if charIsSigned then (castI8 r % 4294967296).toNat else castU8 r

/-- Inline-asm branch of `lerp_vec4_u8` (both programs):
`asm volatile(".word ..." : "+r" (t) : "r" (a), "r" (b) : "memory"); return t;`.
The instruction is hardware outside the repository; `instr a b t` stands for whatever it
leaves in the register of `t`, and the function returns the `uint8_t` variable `t`. -/
def lerp_vec4_u8_asm (charIsSigned : Bool) (instr : Nat → Nat → Nat → Nat) (a b t : Nat) : Nat :=
  charToWord charIsSigned (instr a b t)

/-- Inline-asm branch of `dot3`: `asm volatile(".word ..." : "=r" (result) : "r" (a), "r" (b));
return result;` with `int32_t result`. The instruction is hardware outside the repository;
`instr a b` stands for whatever it leaves in the register of `result`. -/
def dot3_asm (instr : Nat → Nat → Int) (a b : Nat) : Int :=
  wrapI32 (instr a b)

/-! ## rasterizer_lerp.c as configured, without `TEST` -/

/-- Conversion of an `int32_t` quotient to a `uint8_t` variable in the build without `TEST`,
where `uint8_t` is `typedef char`: the register value of the `char`, zero- or sign-extended
from the low eight bits of the quotient. -/
def Lerp.charOfInt (charIsSigned : Bool) (q : Int) : Nat :=
  charToWord charIsSigned (castU8OfInt q)

/-- Body of the pixel loops of `main` in `rasterizer_lerp.c` as the file configures it
(`//#define TEST`): `t1` and `t2` are `char` variables and both calls of `lerp_vec4_u8` go
through the inline-asm branch. -/
def Lerp.trianglePixelAsm (charIsSigned : Bool) (instr : Nat → Nat → Nat → Nat)
    (v0 v1 v2 c0 c1 c2 : Nat) (x y : Int) : Option Nat :=
  if Lerp.insideAt v0 v1 v2 x y then do
    let q1 ← cdiv (wrapI32 (Lerp.w1 v0 v2 x y * 255)) (Lerp.denom v0 v1 v2)
    let q2 ← cdiv (wrapI32 (Lerp.w2 v0 v1 v2 x y * 255)) (Lerp.denom v0 v1 v2)
    let t1 := Lerp.charOfInt charIsSigned q1
    let t2 := Lerp.charOfInt charIsSigned q2
    let c01 := lerp_vec4_u8_asm charIsSigned instr c0 c1 t1
    pure (lerp_vec4_u8_asm charIsSigned instr c01 c2 t2)
  else
    pure Lerp.BACKGROUND_COLOR

/-- Framebuffer word at pixel `(x, y)` of the configured triangle scene in the build without
`TEST`. -/
def Lerp.scenePixelAsm (charIsSigned : Bool) (instr : Nat → Nat → Nat → Nat) (x y : Int) :
    Option Nat :=
  Lerp.trianglePixelAsm charIsSigned instr Lerp.v0 Lerp.v1 Lerp.v2 Lerp.c0 Lerp.c1 Lerp.c2 x y

/-- Function `main` of `rasterizer_lerp.c` up to the end of the pixel loops, as the file
configures it (without `TEST`): the same loops as `Lerp.main`, with the inline-asm blend. -/
def Lerp.mainAsm (charIsSigned : Bool) (instr : Nat → Nat → Nat → Nat) : Option Buffer :=
  renderLoops (Lerp.HEIGHT * Lerp.WIDTH) (fun y x => Lerp.scenePixelAsm charIsSigned instr x y)
    (fun y x => Lerp.slot x y) 0 Lerp.HEIGHT 0 Lerp.WIDTH (fun _ => 0)

/-! ## Machine integers and packing: basic facts -/

theorem wrapI32_of_range (n : Int) (h1 : -2147483648 ≤ n) (h2 : n < 2147483648) :
    wrapI32 n = n := by
  unfold wrapI32; omega

theorem cdiv_of_pos (a b : Int) (hb : 0 < b) : cdiv a b = some (Int.tdiv a b) := by
  unfold cdiv
  rw [if_neg]
  omega

theorem mask_eq_mod (n : Nat) : n &&& 0xFF = n % 256 :=
  Nat.and_pow_two_sub_one_eq_mod n 8

/-- Four fields below 256 occupy disjoint bytes, so the bitwise "or" adds them. -/
theorem pack_eq_sum (p q r s : Nat) (hq : q < 256) (hr : r < 256) (hs : s < 256) :
    (p <<< 24) ||| (q <<< 16) ||| (r <<< 8) ||| s
      = p * 16777216 + q * 65536 + r * 256 + s := by
  have e1 : (p <<< 24) ||| (q <<< 16) = 2 ^ 24 * p + q <<< 16 := by
    rw [Nat.shiftLeft_eq p 24, Nat.mul_comm p (2 ^ 24)]
    exact (Nat.mul_add_lt_is_or (by rw [Nat.shiftLeft_eq]; omega) p).symm
  have e2 : 2 ^ 24 * p + q <<< 16 = 2 ^ 16 * (p * 256 + q) := by
    rw [Nat.shiftLeft_eq]; omega
  have e3 : 2 ^ 16 * (p * 256 + q) ||| (r <<< 8) = 2 ^ 16 * (p * 256 + q) + r <<< 8 :=
    (Nat.mul_add_lt_is_or (by rw [Nat.shiftLeft_eq]; omega) _).symm
  have e4 : 2 ^ 16 * (p * 256 + q) + r <<< 8 = 2 ^ 8 * (p * 65536 + q * 256 + r) := by
    rw [Nat.shiftLeft_eq]; omega
  have e5 : 2 ^ 8 * (p * 65536 + q * 256 + r) ||| s = 2 ^ 8 * (p * 65536 + q * 256 + r) + s :=
    (Nat.mul_add_lt_is_or (by omega) _).symm
  rw [e1, e2, e3, e4, e5]; omega

theorem VEC4_U8_eq (x y z w : Nat) (hx : x < 256) (hy : y < 256) (hz : z < 256) (hw : w < 256) :
    VEC4_U8 x y z w = x * 16777216 + y * 65536 + z * 256 + w := by
  unfold VEC4_U8 wrapU32
  rw [pack_eq_sum x y z w hy hz hw]; omega

theorem and255_lt (v : Int) : and255 v < 256 := by
  unfold and255; omega

theorem VEC4_I8_eq (x y z w : Int) :
    VEC4_I8 x y z w = and255 x * 16777216 + and255 y * 65536 + and255 z * 256 + and255 w := by
  have hx := and255_lt x
  have hy := and255_lt y
  have hz := and255_lt z
  have hw := and255_lt w
  unfold VEC4_I8 wrapU32
  rw [pack_eq_sum _ _ _ _ hy hz hw]; omega

theorem VEC4_X_eq (v : Nat) : VEC4_X v = v / 16777216 := by
  unfold VEC4_X; rw [Nat.shiftRight_eq_div_pow]

theorem VEC4_Y_eq (v : Nat) : VEC4_Y v = v / 65536 % 256 := by
  unfold VEC4_Y; rw [mask_eq_mod, Nat.shiftRight_eq_div_pow]

theorem VEC4_Z_eq (v : Nat) : VEC4_Z v = v / 256 % 256 := by
  unfold VEC4_Z; rw [mask_eq_mod, Nat.shiftRight_eq_div_pow]

theorem VEC4_W_eq (v : Nat) : VEC4_W v = v % 256 := by
  unfold VEC4_W; rw [mask_eq_mod]

theorem castI8_and255 (v : Int) : castI8 (and255 v) = castI8 v := by
  unfold castI8 and255; omega

theorem castI8_range (v : Int) : -128 ≤ castI8 v ∧ castI8 v ≤ 127 := by
  unfold castI8; omega

theorem castI8_of_range (v : Int) (h1 : -128 ≤ v) (h2 : v ≤ 127) : castI8 v = v := by
  unfold castI8; omega

theorem VEC4_X_I8 (x y z w : Int) : VEC4_X (VEC4_I8 x y z w) = and255 x := by
  have hx := and255_lt x
  have hy := and255_lt y
  have hz := and255_lt z
  have hw := and255_lt w
  rw [VEC4_X_eq, VEC4_I8_eq]; omega

theorem VEC4_Y_I8 (x y z w : Int) : VEC4_Y (VEC4_I8 x y z w) = and255 y := by
  have hx := and255_lt x
  have hy := and255_lt y
  have hz := and255_lt z
  have hw := and255_lt w
  rw [VEC4_Y_eq, VEC4_I8_eq]; omega

theorem VEC4_Z_I8 (x y z w : Int) : VEC4_Z (VEC4_I8 x y z w) = and255 z := by
  have hx := and255_lt x
  have hy := and255_lt y
  have hz := and255_lt z
  have hw := and255_lt w
  rw [VEC4_Z_eq, VEC4_I8_eq]; omega

theorem VEC4_Z_U8 (x y z w : Nat) (hx : x < 256) (hy : y < 256) (hz : z < 256) (hw : w < 256) :
    VEC4_Z (VEC4_U8 x y z w) = z := by
  rw [VEC4_Z_eq, VEC4_U8_eq x y z w hx hy hz hw]; omega

/-! ## isqrt -/

/-- Newton step stays above the root: if `x` is positive then the next iterate
`(x + n / x) / 2` has a successor whose square exceeds `n`. -/
theorem newton_step_upper (n x : Int) (hn : 0 ≤ n) (hx : 1 ≤ x) :
    n < ((x + n / x) / 2 + 1) * ((x + n / x) / 2 + 1) := by
  have hq : n < x * (n / x + 1) := by
    have := Int.lt_ediv_add_one_mul_self n (by omega : 0 < x)
    nlinarith
  have hy : x + n / x < 2 * ((x + n / x) / 2 + 1) := by omega
  have hq0 : 0 ≤ n / x := Int.ediv_nonneg hn (by omega)
  nlinarith [sq_nonneg (x - (n / x + 1))]

/-- Sum `x + n / x` never exceeds `n + 1` for `1 ≤ x ≤ n`. -/
theorem newton_sum_le (n x : Int) (hx : 1 ≤ x) (hxn : x ≤ n) : x + n / x ≤ n + 1 := by
  have h1 : x * (n / x) ≤ n := Int.mul_ediv_self_le (by omega)
  have hq0 : 0 ≤ n / x := Int.ediv_nonneg (by omega) (by omega)
  by_cases hq : n / x = 0
  · omega
  · have : 1 ≤ n / x := by omega
    nlinarith

/-- Loop invariant of `isqrt`: started from a positive `x` that is not below the root, with
`y` the Newton iterate of `x` and more fuel than `x`, the loop returns the floor root. -/
theorem isqrtLoop_spec (n : Int) (hn1 : 1 ≤ n) (hn2 : n ≤ 2147483646) :
    ∀ (fuel : Nat) (x : Int), 1 ≤ x → x ≤ n → n < (x + 1) * (x + 1) → x < fuel →
      ∃ r, isqrtLoop n fuel x ((x + n / x) / 2) = some r ∧ 1 ≤ r ∧ r * r ≤ n
        ∧ n < (r + 1) * (r + 1) := by
  intro fuel
  induction fuel with
  | zero => intro x h1 _ _ h4; omega
  | succ k ih =>
    intro x h1 h2 h3 h4
    have hsum := newton_sum_le n x h1 h2
    have hq1 : 1 ≤ n / x := Int.le_ediv_of_mul_le (by omega) (by omega)
    have hy1 : 1 ≤ (x + n / x) / 2 := by omega
    unfold isqrtLoop
    by_cases hlt : (x + n / x) / 2 < x
    · rw [if_pos hlt, cdiv_of_pos n _ (by omega)]
      simp only
      have hup := newton_step_upper n x (by omega) h1
      have hsum2 := newton_sum_le n ((x + n / x) / 2) hy1 (by omega)
      have hq2 : 0 ≤ n / ((x + n / x) / 2) := Int.ediv_nonneg (by omega) (by omega)
      rw [Int.tdiv_eq_ediv (by omega) (by omega), wrapI32_of_range _ (by omega) (by omega),
        Int.shiftRight_eq_div_pow]
      exact_mod_cast ih ((x + n / x) / 2) hy1 (by omega) hup (by omega)
    · rw [if_neg hlt]
      refine ⟨x, rfl, h1, ?_, h3⟩
      have hqx : x ≤ n / x := by omega
      have h5 : x * (n / x) ≤ n := Int.mul_ediv_self_le (by omega)
      nlinarith

/-- Floor square root on the positive inputs whose successor still fits in 32 bits. -/
theorem isqrt_pos_spec (n : Int) (hn1 : 1 ≤ n) (hn2 : n ≤ 2147483646) :
    ∃ r, isqrt n = some r ∧ 1 ≤ r ∧ r * r ≤ n ∧ n < (r + 1) * (r + 1) := by
  unfold isqrt
  rw [if_neg (by omega), wrapI32_of_range _ (by omega) (by omega), Int.shiftRight_eq_div_pow]
  have hnn : n / n = 1 := Int.ediv_self (by omega)
  have h := isqrtLoop_spec n hn1 hn2 (n.toNat + 1) n hn1 (le_refl n) (by nlinarith)
    (by push_cast; omega)
  rw [hnn] at h
  exact_mod_cast h

theorem isqrt_nonpos (n : Int) (h : n ≤ 0) : isqrt n = some 0 := by
  unfold isqrt; rw [if_pos h]

/-- Floor square root on every non-negative input below the largest 32-bit integer. -/
theorem isqrt_floor (n : Int) (hn1 : 0 ≤ n) (hn2 : n ≤ 2147483646) :
    ∃ r, isqrt n = some r ∧ 0 ≤ r ∧ r * r ≤ n ∧ n < (r + 1) * (r + 1) := by
  by_cases h0 : n = 0
  · exact ⟨0, by rw [h0]; decide, le_refl 0, by omega, by omega⟩
  · obtain ⟨r, hr, h1, h2, h3⟩ := isqrt_pos_spec n (by omega) hn2
    exact ⟨r, hr, by omega, h2, h3⟩

/-- The loop of `isqrt` ends within its fuel on every 32-bit input, and no division by zero
is met. -/
theorem isqrt_total (n : Int) (_h1 : -2147483648 ≤ n) (h2 : n ≤ 2147483647) :
    ∃ r, isqrt n = some r := by
  by_cases hmax : n = 2147483647
  · exact ⟨-1073741824, by rw [hmax]; decide⟩
  · by_cases hpos : n ≤ 0
    · exact ⟨0, isqrt_nonpos n hpos⟩
    · obtain ⟨r, hr, _⟩ := isqrt_pos_spec n (by omega) (by omega)
      exact ⟨r, hr⟩

/-- Perfect squares: `isqrt (k*k) = k` for `k` in `[0, 255]`. -/
theorem isqrt_square (k : Int) (hk1 : 0 ≤ k) (hk2 : k ≤ 255) : isqrt (k * k) = some k := by
  have hkk : k * k ≤ 65025 := by nlinarith
  obtain ⟨r, hr, h0, h1, h2⟩ := isqrt_floor (k * k) (mul_self_nonneg k) (by omega)
  have : r = k := by nlinarith
  rw [hr, this]

/-! ## Framebuffer slots of the sphere scene -/

/-- Each pixel of the sphere loops is written to a slot inside `buffer`. -/
theorem sphereSlot_range (x y : Int) (hx1 : -128 ≤ x) (hx2 : x < 128) (hy1 : -128 ≤ y)
    (hy2 : y < 128) : 0 ≤ sphereSlot x y ∧ sphereSlot x y < HEIGHT * WIDTH := by
  unfold sphereSlot HEIGHT WIDTH
  norm_num
  omega

/-- Two different pixels of the sphere loops are written to different slots. -/
theorem sphereSlot_injective (x y u v : Int) (hx1 : -128 ≤ x) (hx2 : x < 128)
    (hu1 : -128 ≤ u) (hu2 : u < 128) (h : sphereSlot x y = sphereSlot u v) :
    x = u ∧ y = v := by
  unfold sphereSlot HEIGHT WIDTH at h
  norm_num at h
  omega

/-! ## Pixel loops -/

/-- Invariant rule for `forLoop`. -/
theorem forLoop_invariant (body : Int → Buffer → Option Buffer) (P : Int → Buffer → Prop) :
    ∀ (k : Nat) (j : Int) (buf : Buffer),
      (∀ i b, j ≤ i → i < j + k → P i b → ∃ b2, body i b = some b2 ∧ P (i + 1) b2) →
      P j buf → ∃ b2, forLoop body k j buf = some b2 ∧ P (j + k) b2 := by
  intro k
  induction k with
  | zero =>
    intro j buf _ h
    exact ⟨buf, rfl, by simpa using h⟩
  | succ n ih =>
    intro j buf hstep h
    obtain ⟨b1, hb1, hP1⟩ := hstep j buf (le_refl j) (by push_cast; omega) h
    obtain ⟨b2, hb2, hP2⟩ := ih (j + 1) b1
      (fun i b hi1 hi2 hP => hstep i b (by omega) (by push_cast; omega) hP) hP1
    refine ⟨b2, ?_, ?_⟩
    · unfold forLoop
      rw [hb1]
      exact hb2
    · have e : j + ((n + 1 : Nat) : Int) = j + 1 + (n : Int) := by push_cast; ring
      rw [e]
      exact hP2

/-- Invariant rule for `forRange`. -/
theorem forRange_invariant (lo hi : Int) (hle : lo ≤ hi) (body : Int → Buffer → Option Buffer)
    (P : Int → Buffer → Prop) (buf : Buffer)
    (hstep : ∀ i b, lo ≤ i → i < hi → P i b → ∃ b2, body i b = some b2 ∧ P (i + 1) b2)
    (h0 : P lo buf) : ∃ b2, forRange lo hi body buf = some b2 ∧ P hi b2 := by
  have hk : lo + ((hi - lo).toNat : Int) = hi := by omega
  obtain ⟨b2, hb, hP⟩ := forLoop_invariant body P (hi - lo).toNat lo buf
    (fun i b h1 h2 hP => hstep i b h1 (by omega) hP) h0
  rw [hk] at hP
  exact ⟨b2, hb, hP⟩

/-- Nested pixel loops store in every slot the word of its pixel, provided every pixel has a
word, every slot lies inside the array and different pixels have different slots. -/
theorem renderLoops_spec (size : Int) (pix : Int → Int → Option Nat) (slot : Int → Int → Int)
    (olo ohi ilo ihi : Int) (buf : Buffer) (ho : olo ≤ ohi) (hi : ilo ≤ ihi)
    (hpix : ∀ p q, olo ≤ p → p < ohi → ilo ≤ q → q < ihi → ∃ c, pix p q = some c)
    (hrange : ∀ p q, olo ≤ p → p < ohi → ilo ≤ q → q < ihi → 0 ≤ slot p q ∧ slot p q < size)
    (hinj : ∀ p q p2 q2, olo ≤ p → p < ohi → ilo ≤ q → q < ihi → olo ≤ p2 → p2 < ohi →
      ilo ≤ q2 → q2 < ihi → slot p q = slot p2 q2 → p = p2 ∧ q = q2) :
    ∃ out, renderLoops size pix slot olo ohi ilo ihi buf = some out
      ∧ ∀ p q, olo ≤ p → p < ohi → ilo ≤ q → q < ihi → pix p q = some (out (slot p q)) := by
  unfold renderLoops
  -- inner loop, for a fixed value `p` of the outer variable and a starting buffer `b0`
  have inner : ∀ p b0, olo ≤ p → p < ohi →
      ∃ b2, forRange ilo ihi (fun q b2 =>
          match pix p q with
          | none => none
          | some c => store size b2 (slot p q) c) b0 = some b2
        ∧ (∀ q, ilo ≤ q → q < ihi → pix p q = some (b2 (slot p q)))
        ∧ (∀ i, (∀ q, ilo ≤ q → q < ihi → i ≠ slot p q) → b2 i = b0 i) := by
    intro p b0 hp1 hp2
    obtain ⟨b2, hb2, hP⟩ := forRange_invariant ilo ihi hi _
      (fun q b => (∀ q2, ilo ≤ q2 → q2 < q → pix p q2 = some (b (slot p q2)))
        ∧ (∀ i, (∀ q2, ilo ≤ q2 → q2 < ihi → i ≠ slot p q2) → b i = b0 i)) b0
      (by
        intro q b hq1 hq2 ⟨hdone, hframe⟩
        obtain ⟨c, hc⟩ := hpix p q hp1 hp2 hq1 hq2
        have hr := hrange p q hp1 hp2 hq1 hq2
        refine ⟨fun j => if j = slot p q then c else b j, ?_, ?_, ?_⟩
        · show (match pix p q with
              | none => none
              | some c => store size b (slot p q) c) = _
          rw [hc]
          show store size b (slot p q) c = _
          unfold store
          rw [if_pos hr]
        · intro q2 h1 h2
          by_cases hq : q2 = q
          · rw [hq, hc]; simp
          · have hne : slot p q2 ≠ slot p q := by
              intro he
              exact hq (hinj p q2 p q hp1 hp2 h1 (by omega) hp1 hp2 hq1 hq2 he).2
            simp only [hne, if_false]
            exact hdone q2 h1 (by omega)
        · intro i hi2
          simp only [hi2 q hq1 hq2, if_false]
          exact hframe i hi2)
      ⟨fun q2 h1 h2 => by omega, fun i _ => rfl⟩
    exact ⟨b2, hb2, fun q h1 h2 => hP.1 q h1 h2, hP.2⟩
  obtain ⟨out, hout, hP⟩ := forRange_invariant olo ohi ho _
    (fun p b => ∀ p2 q, olo ≤ p2 → p2 < p → ilo ≤ q → q < ihi → pix p2 q = some (b (slot p2 q)))
    buf
    (by
      intro p b hp1 hp2 hdone
      obtain ⟨b2, hb2, hnew, hframe⟩ := inner p b hp1 hp2
      refine ⟨b2, hb2, ?_⟩
      intro p2 q h1 h2 h3 h4
      by_cases hpp : p2 = p
      · rw [hpp]; exact hnew q h3 h4
      · have : b2 (slot p2 q) = b (slot p2 q) := by
          apply hframe
          intro q2 h5 h6 he
          exact hpp (hinj p2 q p q2 h1 (by omega) h3 h4 hp1 hp2 h5 h6 he).1
        rw [this]
        exact hdone p2 q h1 (by omega) h3 h4)
    (fun p2 q h1 h2 => by omega)
  exact ⟨out, hout, fun p q h1 h2 h3 h4 => hP p q h1 h2 h3 h4⟩

/-! ## Sphere scene: every step has a value -/

/-- Truncating division by a positive divisor, in terms of floor division. -/
theorem tdiv_eq_ite (a b : Int) (hb : 0 < b) :
    Int.tdiv a b = if 0 ≤ a then a / b else -((-a) / b) := by
  split
  · exact Int.tdiv_eq_ediv (by assumption) (by omega)
  · have h : Int.tdiv (-(-a)) b = -(Int.tdiv (-a) b) := Int.neg_tdiv (-a) b
    rw [neg_neg] at h
    rw [h, Int.tdiv_eq_ediv (by omega) (by omega)]

theorem len2_nonneg (v : Nat) : 0 ≤ len2 v := by
  unfold len2
  nlinarith [mul_self_nonneg (castI8 (VEC4_X v)), mul_self_nonneg (castI8 (VEC4_Y v)),
    mul_self_nonneg (castI8 (VEC4_Z v))]

theorem len2_le (v : Nat) : len2 v ≤ 49152 := by
  unfold len2
  have hx := castI8_range (VEC4_X v)
  have hy := castI8_range (VEC4_Y v)
  have hz := castI8_range (VEC4_Z v)
  nlinarith

/-- Normalisation of a vector of positive squared length has a value. -/
theorem normalizeVec_of_pos (v : Nat) (h : 1 ≤ len2 v) :
    ∃ len, isqrt (len2 v) = some len ∧ 1 ≤ len ∧ len * len ≤ len2 v
      ∧ len2 v < (len + 1) * (len + 1)
      ∧ normalizeVec v = some (VEC4_I8 (Int.tdiv (castI8 (VEC4_X v) * 127) len)
          (Int.tdiv (castI8 (VEC4_Y v) * 127) len) (Int.tdiv (castI8 (VEC4_Z v) * 127) len) 0) := by
  have hle := len2_le v
  obtain ⟨r, hr, h1, h2, h3⟩ := isqrt_pos_spec (len2 v) h (by omega)
  refine ⟨r, hr, h1, h2, h3, ?_⟩
  unfold normalizeVec
  simp [hr, cdiv_of_pos _ r (by omega)]

/-- Lighting step always has a value, since both divisors are the constant 127. -/
theorem intensityOf_eq (ka : Int) (n light : Nat) :
    intensityOf ka n light
      = some (if Int.tdiv ((if Int.tdiv (dot3 n light) 127 < 0 then 0
                else Int.tdiv (dot3 n light) 127) * 255) 127 < ka then ka
              else Int.tdiv ((if Int.tdiv (dot3 n light) 127 < 0 then 0
                else Int.tdiv (dot3 n light) 127) * 255) 127) := by
  unfold intensityOf
  simp [cdiv_of_pos _ 127 (by norm_num)]

theorem intensityOf_ge (ka : Int) (n light : Nat) :
    ∃ i, intensityOf ka n light = some i ∧ ka ≤ i := by
  rw [intensityOf_eq]
  refine ⟨_, rfl, ?_⟩
  split <;> omega

theorem light_dir_norm_eq : normalizeVec LIGHT_DIR = some 0x39fb7300 := by decide

/-- With the configured light direction, the word of a pixel is the body of the loops run
with the normalised light `(57, -5, 115)`. -/
theorem spherePixel_eq (x y : Int) :
    spherePixel x y
      = pixelColor SPHERE_RADIUS KA 0x39fb7300 BACKGROUND_COLOR SPHERE_COLOR x y := by
  unfold spherePixel shadePixel
  rw [light_dir_norm_eq]
  rw [Option.bind_eq_bind, Option.some_bind]

/-- Unnormalised normal of an on-sphere pixel of the configured scene: it has a value and is
not the zero vector. -/
theorem rawNormal_configured (x y : Int) (h : x * x + y * y ≤ 6400) :
    ∃ n0, rawNormal 80 x y = some n0 ∧ 1 ≤ len2 n0 := by
  have hx1 : -80 ≤ x := by nlinarith
  have hx2 : x ≤ 80 := by nlinarith
  have hy1 : -80 ≤ y := by nlinarith
  have hy2 : y ≤ 80 := by nlinarith
  have hxx : 0 ≤ x * x := mul_self_nonneg x
  have hyy : 0 ≤ y * y := mul_self_nonneg y
  have hw : wrapI32 (wrapI32 (80 * 80) - wrapI32 (wrapI32 (x * x) + wrapI32 (y * y)))
      = 6400 - (x * x + y * y) := by
    rw [wrapI32_of_range (x * x) (by omega) (by omega),
      wrapI32_of_range (y * y) (by omega) (by omega),
      wrapI32_of_range (x * x + y * y) (by omega) (by omega),
      wrapI32_of_range (80 * 80) (by norm_num) (by norm_num),
      wrapI32_of_range _ (by omega) (by omega)]
    norm_num
  -- the depth component
  have hnz : ∃ nz, isqrt (6400 - (x * x + y * y)) = some nz ∧ 0 ≤ nz ∧ nz ≤ 80
      ∧ (x = 0 → y = 0 → nz = 80) := by
    by_cases h0 : x * x + y * y = 6400
    · refine ⟨0, ?_, le_refl 0, by norm_num, ?_⟩
      · rw [h0]; decide
      · intro hx hy; rw [hx, hy] at h0; norm_num at h0
    · obtain ⟨r, hr, h1, h2, h3⟩ := isqrt_pos_spec (6400 - (x * x + y * y)) (by omega) (by omega)
      refine ⟨r, hr, by omega, by nlinarith, ?_⟩
      intro hx hy
      rw [hx, hy] at h2 h3
      nlinarith
  obtain ⟨nz, hz, hz1, hz2, hz3⟩ := hnz
  refine ⟨VEC4_I8 (castI8 (Int.tdiv (x * 127) 80)) (castI8 (Int.tdiv (y * 127) 80))
    (castI8 (Int.tdiv (nz * 127) 80)) 0, ?_, ?_⟩
  · unfold rawNormal
    simp only [hw, hz]
    rw [wrapI32_of_range (x * 127) (by omega) (by omega),
      wrapI32_of_range (y * 127) (by omega) (by omega)]
    simp [wrapI32_of_range (nz * 127) (by omega) (by omega), cdiv_of_pos _ 80 (by norm_num)]
  · unfold len2
    rw [VEC4_X_I8, VEC4_Y_I8, VEC4_Z_I8, castI8_and255, castI8_and255, castI8_and255]
    have cx : castI8 (castI8 (Int.tdiv (x * 127) 80)) = Int.tdiv (x * 127) 80 := by
      rw [tdiv_eq_ite _ _ (by norm_num)]; unfold castI8; split <;> omega
    have cy : castI8 (castI8 (Int.tdiv (y * 127) 80)) = Int.tdiv (y * 127) 80 := by
      rw [tdiv_eq_ite _ _ (by norm_num)]; unfold castI8; split <;> omega
    have cz : castI8 (castI8 (Int.tdiv (nz * 127) 80)) = Int.tdiv (nz * 127) 80 := by
      rw [tdiv_eq_ite _ _ (by norm_num)]; unfold castI8; split <;> omega
    rw [cx, cy, cz]
    have sx := mul_self_nonneg (Int.tdiv (x * 127) 80)
    have sy := mul_self_nonneg (Int.tdiv (y * 127) 80)
    have sz := mul_self_nonneg (Int.tdiv (nz * 127) 80)
    by_cases hx0 : x = 0
    · by_cases hy0 : y = 0
      · have := hz3 hx0 hy0
        rw [this]
        have e : Int.tdiv (80 * 127) 80 = 127 := by decide
        rw [e]; omega
      · have hq : Int.tdiv (y * 127) 80 ≠ 0 := by
          rw [tdiv_eq_ite _ _ (by norm_num)]; split <;> omega
        have : 1 ≤ Int.tdiv (y * 127) 80 * Int.tdiv (y * 127) 80 := by
          rcases lt_or_gt_of_ne hq with hlt | hgt <;> nlinarith
        omega
    · have hq : Int.tdiv (x * 127) 80 ≠ 0 := by
        rw [tdiv_eq_ite _ _ (by norm_num)]; split <;> omega
      have : 1 ≤ Int.tdiv (x * 127) 80 * Int.tdiv (x * 127) 80 := by
        rcases lt_or_gt_of_ne hq with hlt | hgt <;> nlinarith
      omega

theorem castU8OfInt_lt (n : Int) : castU8OfInt n < 256 := by
  unfold castU8OfInt; omega

theorem lerpChannel_lt (a b t : Nat) : lerpChannel a b t < 256 := by
  unfold lerpChannel castU8; omega

/-- Blue channel of a blend from black towards the sphere colour stays at or below 50. -/
theorem lerpChannel_black_le (t : Nat) (ht : t < 256) : lerpChannel 0 50 t ≤ 50 := by
  have e4 : subU32 50 0 = 50 := by decide
  unfold lerpChannel
  rw [e4]
  unfold castU8 wrapU32
  have h0 : t * 50 % 4294967296 = t * 50 := Nat.mod_eq_of_lt (by omega)
  rw [h0, Nat.zero_add]
  have h1 : t * 50 / 255 ≤ 50 := by omega
  have h2 : t * 50 / 255 % 4294967296 = t * 50 / 255 := Nat.mod_eq_of_lt (by omega)
  rw [h2]
  exact le_trans (Nat.mod_le _ _) h1

/-- A blend that starts from black never reaches the blue level of the background. -/
theorem lerp_from_black_ne_background (t : Nat) (ht : t < 256) :
    lerp_vec4_u8 0 SPHERE_COLOR t ≠ BACKGROUND_COLOR := by
  intro hc
  have hz : VEC4_Z (lerp_vec4_u8 0 SPHERE_COLOR t) = VEC4_Z BACKGROUND_COLOR := by rw [hc]
  unfold lerp_vec4_u8 at hz
  simp only at hz
  rw [VEC4_Z_U8 _ _ _ _ (lerpChannel_lt _ _ _) (lerpChannel_lt _ _ _) (lerpChannel_lt _ _ _)
    (lerpChannel_lt _ _ _)] at hz
  have e1 : VEC4_Z 0 = 0 := by decide
  have e2 : VEC4_Z SPHERE_COLOR = 50 := by decide
  have e3 : VEC4_Z BACKGROUND_COLOR = 100 := by decide
  rw [e1, e2, e3] at hz
  have := lerpChannel_black_le t ht
  omega

/-- On-sphere pixels of the configured scene: the stored word is a blend from black. -/
theorem spherePixel_on (x y : Int) (h : x * x + y * y ≤ 6400) :
    ∃ t, t < 256 ∧ spherePixel x y = some (lerp_vec4_u8 0 SPHERE_COLOR t) := by
  have hxx : 0 ≤ x * x := mul_self_nonneg x
  have hyy : 0 ≤ y * y := mul_self_nonneg y
  obtain ⟨n0, hn0, hlen⟩ := rawNormal_configured x y h
  obtain ⟨len, _, _, _, _, hn⟩ := normalizeVec_of_pos n0 hlen
  obtain ⟨i, hi, _⟩ := intensityOf_ge 50
    (VEC4_I8 (Int.tdiv (castI8 (VEC4_X n0) * 127) len) (Int.tdiv (castI8 (VEC4_Y n0) * 127) len)
      (Int.tdiv (castI8 (VEC4_Z n0) * 127) len) 0) 0x39fb7300
  refine ⟨castU8OfInt i, castU8OfInt_lt i, ?_⟩
  rw [spherePixel_eq]
  unfold pixelColor litIntensity SPHERE_RADIUS KA
  have hd : wrapI32 (wrapI32 (x * x) + wrapI32 (y * y)) = x * x + y * y := by
    rw [wrapI32_of_range (x * x) (by omega) (by omega),
      wrapI32_of_range (y * y) (by omega) (by omega),
      wrapI32_of_range (x * x + y * y) (by omega) (by omega)]
  have hr : wrapI32 6400 = 6400 := by decide
  simp [hd, hr, h, hn0, hn, hi]

/-- Off-sphere pixels of the configured scene hold the background colour. -/
theorem spherePixel_off (x y : Int) (hx1 : -128 ≤ x) (hx2 : x < 128) (hy1 : -128 ≤ y)
    (hy2 : y < 128) (h : 6400 < x * x + y * y) : spherePixel x y = some BACKGROUND_COLOR := by
  have hxx : x * x ≤ 16384 := by nlinarith
  have hyy : y * y ≤ 16384 := by nlinarith
  have hxx0 : 0 ≤ x * x := mul_self_nonneg x
  have hyy0 : 0 ≤ y * y := mul_self_nonneg y
  rw [spherePixel_eq]
  unfold pixelColor SPHERE_RADIUS
  have hd : wrapI32 (wrapI32 (x * x) + wrapI32 (y * y)) = x * x + y * y := by
    rw [wrapI32_of_range (x * x) (by omega) (by omega),
      wrapI32_of_range (y * y) (by omega) (by omega),
      wrapI32_of_range (x * x + y * y) (by omega) (by omega)]
  have hr : wrapI32 6400 = 6400 := by decide
  simp [hd, hr, not_le.mpr h]

/-- Every pixel of the sphere loops has a word. -/
theorem spherePixel_total (x y : Int) (hx1 : -128 ≤ x) (hx2 : x < 128) (hy1 : -128 ≤ y)
    (hy2 : y < 128) : ∃ c, spherePixel x y = some c := by
  by_cases h : x * x + y * y ≤ 6400
  · obtain ⟨t, _, ht⟩ := spherePixel_on x y h
    exact ⟨_, ht⟩
  · exact ⟨_, spherePixel_off x y hx1 hx2 hy1 hy2 (by omega)⟩

theorem sphere_loop_bounds :
    (-WIDTH / 2) = -128 ∧ (WIDTH / 2) = 128 ∧ (-HEIGHT / 2) = -128 ∧ (HEIGHT / 2) = 128
      ∧ HEIGHT * WIDTH = 65536 := by
  decide

/-- Function `main` of the sphere program after the light direction is normalised. -/
theorem sphere_main_eq :
    main = renderLoops (HEIGHT * WIDTH)
      (fun x y => pixelColor SPHERE_RADIUS KA 0x39fb7300 BACKGROUND_COLOR SPHERE_COLOR x y)
      sphereSlot (-WIDTH / 2) (WIDTH / 2) (-HEIGHT / 2) (HEIGHT / 2) (fun _ => 0) := by
  unfold main
  rw [light_dir_norm_eq]
  rw [Option.bind_eq_bind, Option.some_bind]

/-- The sphere program fills the framebuffer: `main` has a value, and the slot of every
pixel of the loops holds the word of that pixel. -/
theorem sphere_main_spec :
    ∃ buf, main = some buf ∧ ∀ x y, -128 ≤ x → x < 128 → -128 ≤ y → y < 128 →
      spherePixel x y = some (buf (sphereSlot x y)) := by
  obtain ⟨e1, e2, e3, e4, _⟩ := sphere_loop_bounds
  have h := renderLoops_spec (HEIGHT * WIDTH)
    (fun x y => pixelColor SPHERE_RADIUS KA 0x39fb7300 BACKGROUND_COLOR SPHERE_COLOR x y)
    sphereSlot (-WIDTH / 2) (WIDTH / 2) (-HEIGHT / 2) (HEIGHT / 2) (fun _ => 0)
    (by rw [e1, e2]; norm_num) (by rw [e3, e4]; norm_num)
    (fun x y h1 h2 h3 h4 => by
      rw [e1] at h1; rw [e2] at h2; rw [e3] at h3; rw [e4] at h4
      have := spherePixel_total x y h1 h2 h3 h4
      rw [spherePixel_eq] at this
      exact this)
    (fun x y h1 h2 h3 h4 => by
      rw [e1] at h1; rw [e2] at h2; rw [e3] at h3; rw [e4] at h4
      exact sphereSlot_range x y h1 h2 h3 h4)
    (fun x y u v h1 h2 _ _ h5 h6 _ _ he => by
      rw [e1] at h1 h5; rw [e2] at h2 h6
      exact sphereSlot_injective x y u v h1 h2 h5 h6 he)
  obtain ⟨buf, hb, hpix⟩ := h
  refine ⟨buf, ?_, ?_⟩
  · rw [sphere_main_eq]
    exact hb
  · intro x y h1 h2 h3 h4
    rw [spherePixel_eq]
    exact hpix x y (by rw [e1]; exact h1) (by rw [e2]; exact h2) (by rw [e3]; exact h3)
      (by rw [e4]; exact h4)

/-! ## Triangle scene: every pixel has a word -/

theorem cdiv_of_ne (a b : Int) (h0 : b ≠ 0) (h1 : b ≠ -1) : cdiv a b = some (Int.tdiv a b) := by
  unfold cdiv
  rw [if_neg]
  omega

theorem triangle_denom_configured : Lerp.denom Lerp.v0 Lerp.v1 Lerp.v2 = -42025 := by decide

/-- Every pixel of the configured triangle has a word: the divisor `denom` is `-42025`. -/
theorem triangle_pixel_total (x y : Int) : ∃ c, Lerp.scenePixel x y = some c := by
  unfold Lerp.scenePixel Lerp.trianglePixel
  rw [triangle_denom_configured]
  split
  · rw [cdiv_of_ne _ (-42025) (by norm_num) (by norm_num),
      cdiv_of_ne _ (-42025) (by norm_num) (by norm_num)]
    exact ⟨_, rfl⟩
  · exact ⟨_, rfl⟩

theorem triangle_slot_range (x y : Int) (hx1 : 0 ≤ x) (hx2 : x < 256) (hy1 : 0 ≤ y) (hy2 : y < 256) :
    0 ≤ Lerp.slot x y ∧ Lerp.slot x y < Lerp.HEIGHT * Lerp.WIDTH := by
  unfold Lerp.slot Lerp.HEIGHT Lerp.WIDTH
  norm_num
  omega

theorem triangle_slot_injective (x y u v : Int) (hx1 : 0 ≤ x) (hx2 : x < 256) (hu1 : 0 ≤ u)
    (hu2 : u < 256) (h : Lerp.slot x y = Lerp.slot u v) : x = u ∧ y = v := by
  unfold Lerp.slot Lerp.WIDTH at h
  omega

/-- The triangle program fills the framebuffer: `main` has a value, and the slot of every
pixel of the loops holds the word of that pixel. -/
theorem triangle_main_spec :
    ∃ buf, Lerp.main = some buf ∧ ∀ x y, 0 ≤ x → x < 256 → 0 ≤ y → y < 256 →
      Lerp.scenePixel x y = some (buf (Lerp.slot x y)) := by
  have eH : Lerp.HEIGHT = 256 := rfl
  have eW : Lerp.WIDTH = 256 := rfl
  have h := renderLoops_spec (Lerp.HEIGHT * Lerp.WIDTH) (fun y x => Lerp.scenePixel x y)
    (fun y x => Lerp.slot x y) 0 Lerp.HEIGHT 0 Lerp.WIDTH (fun _ => 0)
    (by rw [eH]; norm_num) (by rw [eW]; norm_num)
    (fun y x _ _ _ _ => triangle_pixel_total x y)
    (fun y x h1 h2 h3 h4 => by
      rw [eH] at h2; rw [eW] at h4
      exact triangle_slot_range x y h3 h4 h1 h2)
    (fun y x v u _ _ h3 h4 _ _ h7 h8 he => by
      rw [eW] at h4 h8
      have := triangle_slot_injective x y u v h3 h4 h7 h8 he
      exact ⟨this.2, this.1⟩)
  obtain ⟨buf, hb, hpix⟩ := h
  refine ⟨buf, ?_, ?_⟩
  · unfold Lerp.main
    exact hb
  · intro x y h1 h2 h3 h4
    exact hpix y x h3 (by rw [eH]; exact h4) h1 (by rw [eW]; exact h2)

/-! ## Blend primitive -/

/-- Both programs carry the same text of the plain-integer blend. -/
theorem lerp_programs_agree (a b t : Nat) : Lerp.lerp_vec4_u8 a b t = lerp_vec4_u8 a b t := rfl

/-- On a channel that does not decrease from `a` to `b` the code computes the formula of
the specification. -/
theorem lerpChannel_ascending (a b t : Nat) (hab : a ≤ b) (hb : b ≤ 255) (ht : t ≤ 255) :
    (lerpChannel a b t : Int) = lerpChannelSpec a b t := by
  have hsub : subU32 b a = b - a := by unfold subU32; omega
  have hm : t * (b - a) ≤ 255 * (b - a) := Nat.mul_le_mul_right _ ht
  have hq : t * (b - a) / 255 ≤ b - a := by omega
  unfold lerpChannel lerpChannelSpec
  rw [hsub]
  unfold castU8 wrapU32
  rw [Nat.mod_eq_of_lt (by omega : t * (b - a) < 4294967296),
    Nat.mod_eq_of_lt (by omega : a + t * (b - a) / 255 < 4294967296),
    Nat.mod_eq_of_lt (by omega : a + t * (b - a) / 255 < 256)]
  have hc : ((t : Int) * ((b : Int) - a)) = ((t * (b - a) : Nat) : Int) := by
    push_cast [Nat.cast_sub hab]; ring
  rw [hc, Int.tdiv_eq_ediv (by positivity) (by norm_num)]
  have h3 : (a : Int) + ((t * (b - a) : Nat) : Int) / 255 = ((a + t * (b - a) / 255 : Nat) : Int) := by
    push_cast; ring
  rw [h3]
  omega

/-- On a channel that decreases from `a` to `b` the difference `b - a` wraps around in
`unsigned int`; for a non-zero factor the code returns
`a + 1 - ceil((t*(a-b) - 1)/255)`, reduced to 8 bits. -/
theorem lerpChannel_descending (a b t : Nat) (hba : b < a) (ha : a ≤ 255) (ht1 : 1 ≤ t)
    (ht : t ≤ 255) :
    lerpChannel a b t = (a + 1 - (t * (a - b) + 253) / 255) % 256 := by
  have hsub : subU32 b a = 4294967296 - (a - b) := by unfold subU32; omega
  have hm1 : 1 * 1 ≤ t * (a - b) := Nat.mul_le_mul ht1 (by omega)
  have hm2 : t * (a - b) ≤ 255 * (a - b) := Nat.mul_le_mul_right _ ht
  have hmul : t * (4294967296 - (a - b)) = t * 4294967296 - t * (a - b) := Nat.mul_sub t _ _
  have hmod : (t * 4294967296 - t * (a - b)) % 4294967296 = 4294967296 - t * (a - b) := by
    have e : t * 4294967296 - t * (a - b)
        = (4294967296 - t * (a - b)) + 4294967296 * (t - 1) := by omega
    rw [e, Nat.add_mul_mod_self_left]
    exact Nat.mod_eq_of_lt (by omega)
  have hdiv : (4294967296 - t * (a - b)) / 255 = 16843009 - (t * (a - b) + 253) / 255 := by
    omega
  have hk : (t * (a - b) + 253) / 255 ≤ a := by omega
  unfold lerpChannel
  rw [hsub, hmul]
  unfold castU8 wrapU32
  rw [hmod, hdiv, Nat.mod_eq_of_lt (by omega : a + (16843009 - (t * (a - b) + 253) / 255)
    < 4294967296)]
  omega

/-! ## Claims C1 to C10 -/

/-- C1, evaluated at a decreasing channel: for `a = 0xFF000000`, `b = 0`, `t = 255` the
X channel goes from 255 down to 0, the formula of the specification gives 0, and the
plain-integer blend of either program returns 1 there, because `VEC4_X(b) - VEC4_X(a)` is
formed in `unsigned int` and wraps around before the division by 255. -/
theorem lerp_formula_fails_on_decreasing_channel :
    VEC4_X (lerp_vec4_u8 0xFF000000 0 255) = 1
      ∧ Lerp.VEC_X (Lerp.lerp_vec4_u8 0xFF000000 0 255) = 1
      ∧ lerpChannelSpec (VEC4_X 0xFF000000) (VEC4_X 0) 255 = 0 := by
  decide

/-- C2, evaluated at the largest 32-bit integer: `x + 1` leaves the 32-bit range in the
first statement of `isqrt`, and the value returned is negative, so it is not the floor
square root of `2147483647` (which is 46340). -/
theorem isqrt_int32_max :
    isqrt 2147483647 = some (-1073741824)
      ∧ ¬ ((-1073741824 : Int) * (-1073741824) ≤ 2147483647)
      ∧ (46340 : Int) * 46340 ≤ 2147483647 ∧ (2147483647 : Int) < 46341 * 46341 := by
  decide

/-- C3, evaluated at a decreasing channel: with the factor 255 the blend of
`a = 0xFF000000` and `b = 0` is `0x01000000` in both programs, not `b`. -/
theorem lerp_at_255_misses_b :
    lerp_vec4_u8 0xFF000000 0 255 = 0x01000000
      ∧ Lerp.lerp_vec4_u8 0xFF000000 0 255 = 0x01000000
      ∧ lerp_vec4_u8 0xFF000000 0 255 ≠ 0 := by
  decide

/-- C4, evaluated at the on-sphere pixel `(32, -7)` of the configured scene: the intensity
is 257, the 8-bit factor handed to the blend is 1, below the ambient floor, and the
framebuffer holds the fully black word 0 at that pixel. -/
theorem sphere_intensity_exceeds_255 :
    ∃ buf, main = some buf
      ∧ (32 : Int) * 32 + (-7) * (-7) ≤ SPHERE_RADIUS * SPHERE_RADIUS
      ∧ sphereIntensity 32 (-7) = some 257
      ∧ castU8OfInt 257 = 1 ∧ (1 : Int) < KA
      ∧ buf (sphereSlot 32 (-7)) = 0
      ∧ VEC4_X 0 = 0 ∧ VEC4_Y 0 = 0 ∧ VEC4_Z 0 = 0 := by
  obtain ⟨buf, hb, hp⟩ := sphere_main_spec
  have h := hp 32 (-7) (by norm_num) (by norm_num) (by norm_num) (by norm_num)
  have e : spherePixel 32 (-7) = some 0 := by decide
  rw [e] at h
  exact ⟨buf, hb, by decide, by decide, by decide, by decide, (Option.some.inj h).symm,
    by decide, by decide, by decide⟩

/-- C5: in the configured sphere scene, for every pixel `(x, y)` with `x`, `y` in
`[-128, 128)`, the framebuffer filled by `main` holds the background colour at that pixel
when `x*x + y*y > R*R`, and a word different from the background colour when
`x*x + y*y ≤ R*R`, the boundary included. -/
theorem sphere_pixel_background_iff_outside (x y : Int) (hx1 : -128 ≤ x) (hx2 : x < 128)
    (hy1 : -128 ≤ y) (hy2 : y < 128) :
    ∃ buf, main = some buf
      ∧ (x * x + y * y > SPHERE_RADIUS * SPHERE_RADIUS →
          buf (sphereSlot x y) = BACKGROUND_COLOR)
      ∧ (x * x + y * y ≤ SPHERE_RADIUS * SPHERE_RADIUS →
          buf (sphereSlot x y) ≠ BACKGROUND_COLOR) := by
  have hR : SPHERE_RADIUS * SPHERE_RADIUS = 6400 := by decide
  rw [hR]
  obtain ⟨buf, hb, hp⟩ := sphere_main_spec
  have h := hp x y hx1 hx2 hy1 hy2
  refine ⟨buf, hb, ?_, ?_⟩
  · intro hout
    rw [spherePixel_off x y hx1 hx2 hy1 hy2 hout] at h
    exact (Option.some.inj h).symm
  · intro hon
    obtain ⟨t, ht, hpix⟩ := spherePixel_on x y hon
    rw [hpix] at h
    rw [← Option.some.inj h]
    exact lerp_from_black_ne_background t ht

/-- Witness of C5 at the boundary pixel `(80, 0)`. -/
theorem sphere_pixel_background_iff_outside_witness :
    ∃ buf, main = some buf
      ∧ ((80 : Int) * 80 + 0 * 0 > SPHERE_RADIUS * SPHERE_RADIUS →
          buf (sphereSlot 80 0) = BACKGROUND_COLOR)
      ∧ ((80 : Int) * 80 + 0 * 0 ≤ SPHERE_RADIUS * SPHERE_RADIUS →
          buf (sphereSlot 80 0) ≠ BACKGROUND_COLOR) :=
  sphere_pixel_background_iff_outside 80 0 (by decide) (by decide) (by decide) (by decide)

/-- C6: in the configured triangle scene, blended with the plain-integer code, the pixel at
the coordinate of each vertex passes the inside test, and every channel of the word that
the framebuffer holds there is within one unit of the colour of that vertex. -/
theorem triangle_vertices_render_own_colour :
    ∃ buf, Lerp.main = some buf
      ∧ (Lerp.VEC_X Lerp.v0 = 25 ∧ Lerp.VEC_Y Lerp.v0 = 230
        ∧ Lerp.VEC_X Lerp.v1 = 230 ∧ Lerp.VEC_Y Lerp.v1 = 230
        ∧ Lerp.VEC_X Lerp.v2 = 127 ∧ Lerp.VEC_Y Lerp.v2 = 25)
      ∧ (Lerp.insideAt Lerp.v0 Lerp.v1 Lerp.v2 25 230 = true
        ∧ buf (Lerp.slot 25 230) = 0xFF000000 ∧ withinOne 0xFF000000 Lerp.c0 = true)
      ∧ (Lerp.insideAt Lerp.v0 Lerp.v1 Lerp.v2 230 230 = true
        ∧ buf (Lerp.slot 230 230) = 0x01FF0000 ∧ withinOne 0x01FF0000 Lerp.c1 = true)
      ∧ (Lerp.insideAt Lerp.v0 Lerp.v1 Lerp.v2 127 25 = true
        ∧ buf (Lerp.slot 127 25) = 0x0100FF00 ∧ withinOne 0x0100FF00 Lerp.c2 = true) := by
  obtain ⟨buf, hb, hp⟩ := triangle_main_spec
  have h0 := hp 25 230 (by norm_num) (by norm_num) (by norm_num) (by norm_num)
  have h1 := hp 230 230 (by norm_num) (by norm_num) (by norm_num) (by norm_num)
  have h2 := hp 127 25 (by norm_num) (by norm_num) (by norm_num) (by norm_num)
  have e0 : Lerp.scenePixel 25 230 = some 0xFF000000 := by decide
  have e1 : Lerp.scenePixel 230 230 = some 0x01FF0000 := by decide
  have e2 : Lerp.scenePixel 127 25 = some 0x0100FF00 := by decide
  rw [e0] at h0
  rw [e1] at h1
  rw [e2] at h2
  exact ⟨buf, hb, by decide, ⟨by decide, (Option.some.inj h0).symm, by decide⟩,
    ⟨by decide, (Option.some.inj h1).symm, by decide⟩,
    ⟨by decide, (Option.some.inj h2).symm, by decide⟩⟩

/-- With the plain-integer blend (a build of `rasterizer_lerp.c` with `TEST` defined, which
the file as written does not do), the pixel `(127, 230)` of the configured triangle scene
passes the inside test and the word that the framebuffer holds there has blue channel 0 and
non-zero red and green channels. -/
theorem triangle_bottom_midpoint_red_green :
    ∃ buf, Lerp.main = some buf
      ∧ Lerp.insideAt Lerp.v0 Lerp.v1 Lerp.v2 127 230 = true
      ∧ buf (Lerp.slot 127 230) = 0x827E0000
      ∧ Lerp.VEC_Z 0x827E0000 = 0
      ∧ Lerp.VEC_X 0x827E0000 ≠ 0 ∧ Lerp.VEC_Y 0x827E0000 ≠ 0 := by
  obtain ⟨buf, hb, hp⟩ := triangle_main_spec
  have h := hp 127 230 (by norm_num) (by norm_num) (by norm_num) (by norm_num)
  have e : Lerp.scenePixel 127 230 = some 0x827E0000 := by decide
  rw [e] at h
  exact ⟨buf, hb, by decide, (Option.some.inj h).symm, by decide, by decide, by decide⟩

/-- C8 as stated fails: at the centre pixel `(0, 0)` of the configured sphere scene the
framebuffer holds `0xB42D2D00`, whose Z channel 45 is not strictly between the Z channel
of the background (100) and the Z channel of the sphere colour (50). -/
theorem sphere_centre_not_between_in_Z :
    ¬ ∃ buf i, main = some buf ∧ sphereIntensity 0 0 = some i ∧ KA ≤ i
        ∧ (0 : Int) * 0 + 0 * 0 ≤ SPHERE_RADIUS * SPHERE_RADIUS
        ∧ strictlyBetween (VEC4_X BACKGROUND_COLOR) (VEC4_X SPHERE_COLOR)
            (VEC4_X (buf (sphereSlot 0 0))) = true
        ∧ strictlyBetween (VEC4_Y BACKGROUND_COLOR) (VEC4_Y SPHERE_COLOR)
            (VEC4_Y (buf (sphereSlot 0 0))) = true
        ∧ strictlyBetween (VEC4_Z BACKGROUND_COLOR) (VEC4_Z SPHERE_COLOR)
            (VEC4_Z (buf (sphereSlot 0 0))) = true := by
  rintro ⟨buf, i, hb, _, _, _, _, _, hz⟩
  obtain ⟨buf2, hb2, hp⟩ := sphere_main_spec
  have hbuf : buf2 = buf := Option.some.inj (hb2.symm.trans hb)
  have h := hp 0 0 (by norm_num) (by norm_num) (by norm_num) (by norm_num)
  have e : spherePixel 0 0 = some 0xB42D2D00 := by decide
  rw [e, hbuf] at h
  rw [← Option.some.inj h] at hz
  revert hz
  decide

/-- C8 as amended: the centre pixel `(0, 0)` of the configured sphere scene is on the
sphere, its intensity 230 is at least `KA`, the word `0xB42D2D00` that the framebuffer
holds there is not the background colour, its X and Y channels are strictly between those
of the background and of the sphere colour, and its Z channel is strictly between 0
(black, where the blend starts) and the Z channel of the sphere colour. -/
theorem sphere_centre_shaded :
    ∃ buf, main = some buf
      ∧ (0 : Int) * 0 + 0 * 0 ≤ SPHERE_RADIUS * SPHERE_RADIUS
      ∧ sphereIntensity 0 0 = some 230 ∧ KA ≤ 230
      ∧ buf (sphereSlot 0 0) = 0xB42D2D00
      ∧ 0xB42D2D00 ≠ BACKGROUND_COLOR
      ∧ strictlyBetween (VEC4_X BACKGROUND_COLOR) (VEC4_X SPHERE_COLOR) (VEC4_X 0xB42D2D00) = true
      ∧ strictlyBetween (VEC4_Y BACKGROUND_COLOR) (VEC4_Y SPHERE_COLOR) (VEC4_Y 0xB42D2D00) = true
      ∧ strictlyBetween 0 (VEC4_Z SPHERE_COLOR) (VEC4_Z 0xB42D2D00) = true := by
  obtain ⟨buf, hb, hp⟩ := sphere_main_spec
  have h := hp 0 0 (by norm_num) (by norm_num) (by norm_num) (by norm_num)
  have e : spherePixel 0 0 = some 0xB42D2D00 := by decide
  rw [e] at h
  exact ⟨buf, hb, by decide, by decide, by decide, (Option.some.inj h).symm, by decide,
    by decide, by decide, by decide⟩

/-- Reading of a channel by `dot3` is the signed byte of the specification. -/
theorem castI8_VEC4_X (v : Nat) : castI8 (VEC4_X v) = signedByte v 24 := by
  rw [VEC4_X_eq]
  unfold castI8 signedByte
  norm_num
  split <;> omega

theorem castI8_VEC4_Y (v : Nat) : castI8 (VEC4_Y v) = signedByte v 16 := by
  rw [VEC4_Y_eq]
  unfold castI8 signedByte
  norm_num
  split <;> omega

theorem castI8_VEC4_Z (v : Nat) : castI8 (VEC4_Z v) = signedByte v 8 := by
  rw [VEC4_Z_eq]
  unfold castI8 signedByte
  norm_num
  split <;> omega

theorem signedByte_range (v lo : Nat) : -128 ≤ signedByte v lo ∧ signedByte v lo ≤ 127 := by
  unfold signedByte
  split <;> omega

theorem dot3_eq_spec (a b : Nat) : dot3 a b = dot3Spec a b := by
  unfold dot3 dot3Spec
  rw [castI8_VEC4_X, castI8_VEC4_X, castI8_VEC4_Y, castI8_VEC4_Y, castI8_VEC4_Z, castI8_VEC4_Z]

/-- Signed bytes above the W byte only depend on the word without its W byte. -/
theorem signedByte_congr (v u lo : Nat) (hlo : 8 ≤ lo) (h : v / 256 = u / 256) :
    signedByte v lo = signedByte u lo := by
  have e : ∀ n : Nat, n / 2 ^ lo = n / 256 / 2 ^ (lo - 8) := by
    intro n
    rw [Nat.div_div_eq_div_mul, ← Nat.pow_add (2) 8 (lo - 8)]
    congr 2
    omega
  unfold signedByte
  rw [e v, e u, h]

/-- C9: for all 32-bit words `a` and `b`, the plain-integer `dot3` is the sum of the three
products of the signed readings of bits `[31:24]`, `[23:16]`, `[15:8]`, each reading lies in
`[-128, 127]`, and words that differ from `a` and `b` only in the W byte give the same
result. -/
theorem dot3_signed_product (a b : Nat) (_ha : a < 4294967296) (_hb : b < 4294967296) :
    dot3 a b = signedByte a 24 * signedByte b 24 + signedByte a 16 * signedByte b 16
        + signedByte a 8 * signedByte b 8
      ∧ (∀ lo, -128 ≤ signedByte a lo ∧ signedByte a lo ≤ 127
          ∧ -128 ≤ signedByte b lo ∧ signedByte b lo ≤ 127)
      ∧ (∀ a2 b2 : Nat, a2 < 4294967296 → b2 < 4294967296 → a2 / 256 = a / 256 →
          b2 / 256 = b / 256 → dot3 a2 b2 = dot3 a b) := by
  refine ⟨dot3_eq_spec a b, ?_, ?_⟩
  · intro lo
    exact ⟨(signedByte_range a lo).1, (signedByte_range a lo).2, (signedByte_range b lo).1,
      (signedByte_range b lo).2⟩
  · intro a2 b2 _ _ h1 h2
    rw [dot3_eq_spec, dot3_eq_spec]
    unfold dot3Spec
    rw [signedByte_congr a2 a 24 (by norm_num) h1, signedByte_congr a2 a 16 (by norm_num) h1,
      signedByte_congr a2 a 8 (by norm_num) h1, signedByte_congr b2 b 24 (by norm_num) h2,
      signedByte_congr b2 b 16 (by norm_num) h2, signedByte_congr b2 b 8 (by norm_num) h2]

/-- Witness of C9 at the normalised light direction and a surface normal. -/
theorem dot3_signed_product_witness :
    dot3 0x39FB7300 0x33F57400 = signedByte 0x39FB7300 24 * signedByte 0x33F57400 24
        + signedByte 0x39FB7300 16 * signedByte 0x33F57400 16
        + signedByte 0x39FB7300 8 * signedByte 0x33F57400 8
      ∧ (∀ lo, -128 ≤ signedByte 0x39FB7300 lo ∧ signedByte 0x39FB7300 lo ≤ 127
          ∧ -128 ≤ signedByte 0x33F57400 lo ∧ signedByte 0x33F57400 lo ≤ 127)
      ∧ (∀ a2 b2 : Nat, a2 < 4294967296 → b2 < 4294967296 → a2 / 256 = 0x39FB7300 / 256 →
          b2 / 256 = 0x33F57400 / 256 → dot3 a2 b2 = dot3 0x39FB7300 0x33F57400) :=
  dot3_signed_product 0x39FB7300 0x33F57400 (by decide) (by decide)

/-- C10: `dot3` is symmetric in its two operands. -/
theorem dot3_symmetric (a b : Nat) : dot3 a b = dot3 b a := by
  unfold dot3
  ring

/-! ## Claims C11 to C20 -/

theorem VEC4_X_U8 (x y z w : Nat) (hx : x < 256) (hy : y < 256) (hz : z < 256) (hw : w < 256) :
    VEC4_X (VEC4_U8 x y z w) = x := by
  rw [VEC4_X_eq, VEC4_U8_eq x y z w hx hy hz hw]; omega

theorem VEC4_Y_U8 (x y z w : Nat) (hx : x < 256) (hy : y < 256) (hz : z < 256) (hw : w < 256) :
    VEC4_Y (VEC4_U8 x y z w) = y := by
  rw [VEC4_Y_eq, VEC4_U8_eq x y z w hx hy hz hw]; omega

theorem VEC4_W_U8 (x y z w : Nat) (hx : x < 256) (hy : y < 256) (hz : z < 256) (hw : w < 256) :
    VEC4_W (VEC4_U8 x y z w) = w := by
  rw [VEC4_W_eq, VEC4_U8_eq x y z w hx hy hz hw]; omega

theorem VEC4_W_I8 (x y z w : Int) : VEC4_W (VEC4_I8 x y z w) = and255 w := by
  have hx := and255_lt x
  have hy := and255_lt y
  have hz := and255_lt z
  have hw := and255_lt w
  rw [VEC4_W_eq, VEC4_I8_eq]; omega

/-- Unpacking a 32-bit word and packing the four channels again gives the word back. -/
theorem VEC4_U8_unpack (v : Nat) (hv : v < 4294967296) :
    VEC4_U8 (VEC4_X v) (VEC4_Y v) (VEC4_Z v) (VEC4_W v) = v := by
  rw [VEC4_U8_eq _ _ _ _ (by rw [VEC4_X_eq]; omega) (by rw [VEC4_Y_eq]; omega)
    (by rw [VEC4_Z_eq]; omega) (by rw [VEC4_W_eq]; omega)]
  rw [VEC4_X_eq, VEC4_Y_eq, VEC4_Z_eq, VEC4_W_eq]
  omega

/-- With the factor 0 a channel of the blend is the channel of `a`. -/
theorem lerpChannel_zero (a b : Nat) (ha : a < 256) : lerpChannel a b 0 = a := by
  unfold lerpChannel castU8 wrapU32
  rw [Nat.zero_mul]
  omega

/-- C11: for all packed colours `a` and `b`, the plain-integer blend with factor 0 returns
the word `a` itself, in both programs. -/
theorem lerp_at_zero (a b : Nat) (ha : a < 4294967296) (_hb : b < 4294967296) :
    lerp_vec4_u8 a b 0 = a ∧ Lerp.lerp_vec4_u8 a b 0 = a := by
  have h : lerp_vec4_u8 a b 0 = a := by
    unfold lerp_vec4_u8
    simp only
    rw [lerpChannel_zero _ _ (by rw [VEC4_X_eq]; omega),
      lerpChannel_zero _ _ (by rw [VEC4_Y_eq]; omega),
      lerpChannel_zero _ _ (by rw [VEC4_Z_eq]; omega),
      lerpChannel_zero _ _ (by rw [VEC4_W_eq]; omega)]
    exact VEC4_U8_unpack a ha
  exact ⟨h, by rw [lerp_programs_agree]; exact h⟩

/-- Witness of C11 at the blend of the sphere colour towards the background. -/
theorem lerp_at_zero_witness :
    lerp_vec4_u8 0xC8323200 0x0F0F6400 0 = 0xC8323200
      ∧ Lerp.lerp_vec4_u8 0xC8323200 0x0F0F6400 0 = 0xC8323200 :=
  lerp_at_zero 0xC8323200 0x0F0F6400 (by decide) (by decide)

/-- C12: packing and unpacking are inverse on in-range values. For `x, y, z, w` in
`[0, 255]` the four readers applied to `VEC4_U8(x,y,z,w)` return `x, y, z, w` (with the
macros of either file); for a 32-bit word `v`, packing its four channels gives `v`; for
signed `sx, sy, sz, sw` in `[-128, 127]` the signed reading of each byte of
`VEC4_I8(sx,sy,sz,sw)` returns `sx, sy, sz, sw`. -/
theorem pack_unpack_inverse (x y z w v : Nat) (sx sy sz sw : Int) (hx : x ≤ 255) (hy : y ≤ 255)
    (hz : z ≤ 255) (hw : w ≤ 255) (hv : v < 4294967296)
    (hsx : -128 ≤ sx ∧ sx ≤ 127) (hsy : -128 ≤ sy ∧ sy ≤ 127) (hsz : -128 ≤ sz ∧ sz ≤ 127)
    (hsw : -128 ≤ sw ∧ sw ≤ 127) :
    (VEC4_X (VEC4_U8 x y z w) = x ∧ VEC4_Y (VEC4_U8 x y z w) = y
        ∧ VEC4_Z (VEC4_U8 x y z w) = z ∧ VEC4_W (VEC4_U8 x y z w) = w)
      ∧ (Lerp.VEC_X (Lerp.VEC4_U8 x y z w) = x ∧ Lerp.VEC_Y (Lerp.VEC4_U8 x y z w) = y
        ∧ Lerp.VEC_Z (Lerp.VEC4_U8 x y z w) = z ∧ Lerp.VEC_W (Lerp.VEC4_U8 x y z w) = w)
      ∧ VEC4_U8 (VEC4_X v) (VEC4_Y v) (VEC4_Z v) (VEC4_W v) = v
      ∧ Lerp.VEC4_U8 (Lerp.VEC_X v) (Lerp.VEC_Y v) (Lerp.VEC_Z v) (Lerp.VEC_W v) = v
      ∧ (castI8 (VEC4_X (VEC4_I8 sx sy sz sw)) = sx ∧ castI8 (VEC4_Y (VEC4_I8 sx sy sz sw)) = sy
        ∧ castI8 (VEC4_Z (VEC4_I8 sx sy sz sw)) = sz
        ∧ castI8 (VEC4_W (VEC4_I8 sx sy sz sw)) = sw) := by
  have hx2 : x < 256 := by omega
  have hy2 : y < 256 := by omega
  have hz2 : z < 256 := by omega
  have hw2 : w < 256 := by omega
  have h1 := VEC4_X_U8 x y z w hx2 hy2 hz2 hw2
  have h2 := VEC4_Y_U8 x y z w hx2 hy2 hz2 hw2
  have h3 := VEC4_Z_U8 x y z w hx2 hy2 hz2 hw2
  have h4 := VEC4_W_U8 x y z w hx2 hy2 hz2 hw2
  have h5 := VEC4_U8_unpack v hv
  refine ⟨⟨h1, h2, h3, h4⟩, ⟨h1, h2, h3, h4⟩, h5, h5, ?_, ?_, ?_, ?_⟩
  · rw [VEC4_X_I8, castI8_and255]; exact castI8_of_range sx hsx.1 hsx.2
  · rw [VEC4_Y_I8, castI8_and255]; exact castI8_of_range sy hsy.1 hsy.2
  · rw [VEC4_Z_I8, castI8_and255]; exact castI8_of_range sz hsz.1 hsz.2
  · rw [VEC4_W_I8, castI8_and255]; exact castI8_of_range sw hsw.1 hsw.2

/-- Witness of C12 at the sphere colour, the packed sphere colour and the light direction. -/
theorem pack_unpack_inverse_witness :
    (VEC4_X (VEC4_U8 200 50 50 0) = 200 ∧ VEC4_Y (VEC4_U8 200 50 50 0) = 50
        ∧ VEC4_Z (VEC4_U8 200 50 50 0) = 50 ∧ VEC4_W (VEC4_U8 200 50 50 0) = 0)
      ∧ (Lerp.VEC_X (Lerp.VEC4_U8 200 50 50 0) = 200 ∧ Lerp.VEC_Y (Lerp.VEC4_U8 200 50 50 0) = 50
        ∧ Lerp.VEC_Z (Lerp.VEC4_U8 200 50 50 0) = 50 ∧ Lerp.VEC_W (Lerp.VEC4_U8 200 50 50 0) = 0)
      ∧ VEC4_U8 (VEC4_X 0xC8323200) (VEC4_Y 0xC8323200) (VEC4_Z 0xC8323200)
          (VEC4_W 0xC8323200) = 0xC8323200
      ∧ Lerp.VEC4_U8 (Lerp.VEC_X 0xC8323200) (Lerp.VEC_Y 0xC8323200) (Lerp.VEC_Z 0xC8323200)
          (Lerp.VEC_W 0xC8323200) = 0xC8323200
      ∧ (castI8 (VEC4_X (VEC4_I8 10 (-1) 20 0)) = 10 ∧ castI8 (VEC4_Y (VEC4_I8 10 (-1) 20 0)) = -1
        ∧ castI8 (VEC4_Z (VEC4_I8 10 (-1) 20 0)) = 20
        ∧ castI8 (VEC4_W (VEC4_I8 10 (-1) 20 0)) = 0) :=
  pack_unpack_inverse 200 50 50 0 0xC8323200 10 (-1) 20 0 (by decide) (by decide) (by decide)
    (by decide) (by decide) (by decide) (by decide) (by decide) (by decide)

/-- On a channel that does not decrease, the blend stays between the two channels. -/
theorem lerpChannel_between_ascending (a b t : Nat) (hab : a ≤ b) (hb : b ≤ 255) (ht : t ≤ 255) :
    a ≤ lerpChannel a b t ∧ lerpChannel a b t ≤ b := by
  have hsub : subU32 b a = b - a := by unfold subU32; omega
  have hm : t * (b - a) ≤ 255 * (b - a) := Nat.mul_le_mul_right _ ht
  have hq : t * (b - a) / 255 ≤ b - a := by omega
  unfold lerpChannel
  rw [hsub]
  unfold castU8 wrapU32
  rw [Nat.mod_eq_of_lt (by omega : t * (b - a) < 4294967296),
    Nat.mod_eq_of_lt (by omega : a + t * (b - a) / 255 < 4294967296),
    Nat.mod_eq_of_lt (by omega : a + t * (b - a) / 255 < 256)]
  omega

/-- On a decreasing channel the blend stays between the two channels except when the factor
is 1 and the channels differ by 1. -/
theorem lerpChannel_between_descending (a b t : Nat) (hba : b < a) (ha : a ≤ 255) (ht : t ≤ 255)
    (hm : 2 ≤ t * (a - b)) : b ≤ lerpChannel a b t ∧ lerpChannel a b t ≤ a := by
  have ht1 : 1 ≤ t := by
    rcases Nat.eq_zero_or_pos t with h0 | h0
    · rw [h0, Nat.zero_mul] at hm; omega
    · exact h0
  have hm2 : t * (a - b) ≤ 255 * (a - b) := Nat.mul_le_mul_right _ ht
  rw [lerpChannel_descending a b t hba ha ht1 ht]
  have hk1 : 1 ≤ (t * (a - b) + 253) / 255 := by omega
  have hk2 : (t * (a - b) + 253) / 255 ≤ a - b := by omega
  rw [Nat.mod_eq_of_lt (by omega)]
  omega

/-- C19, evaluated where the factor is 1 and a channel decreases by 1: for `a = 0x01000000`,
`b = 0`, `t = 1` the X channels of `a` and `b` are 1 and 0, and the X channel of the
plain-integer blend is 2 in both programs, above both. -/
theorem lerp_leaves_channel_range :
    VEC4_X 0x01000000 = 1 ∧ VEC4_X 0 = 0
      ∧ VEC4_X (lerp_vec4_u8 0x01000000 0 1) = 2
      ∧ Lerp.VEC_X (Lerp.lerp_vec4_u8 0x01000000 0 1) = 2
      ∧ ¬ (VEC4_X (lerp_vec4_u8 0x01000000 0 1) ≤ max (VEC4_X 0x01000000) (VEC4_X 0)) := by
  decide

theorem charToWord_shape (s : Bool) (r : Nat) :
    charToWord s r < 256 ∨ 4294967168 ≤ charToWord s r := by
  unfold charToWord
  cases s
  · left
    simp only [Bool.false_eq_true, if_false]
    unfold castU8
    omega
  · simp only [if_true]
    unfold castI8
    omega

/-- C13, evaluated at two calls of the programs: whatever the instruction computes and
whatever the signedness of `char`, the inline-asm branch returns the 8-bit variable `t`, so
its value is below 256 or a sign extension. It is never the word `0x827E0000` that the
plain-integer branch returns for the blend `lerp_vec4_u8(c0, c1, 126)` of the triangle
program, nor the word `0xB42D2D00` that it returns for `lerp_vec4_u8(0, SPHERE_COLOR, 230)`
of the sphere program. -/
theorem lerp_asm_returns_eight_bits (s : Bool) (instr : Nat → Nat → Nat → Nat) :
    Lerp.lerp_vec4_u8 Lerp.c0 Lerp.c1 126 = 0x827E0000
      ∧ lerp_vec4_u8_asm s instr Lerp.c0 Lerp.c1 126 ≠ Lerp.lerp_vec4_u8 Lerp.c0 Lerp.c1 126
      ∧ lerp_vec4_u8 0 SPHERE_COLOR 230 = 0xB42D2D00
      ∧ lerp_vec4_u8_asm s instr 0 SPHERE_COLOR 230 ≠ lerp_vec4_u8 0 SPHERE_COLOR 230 := by
  have e1 : Lerp.lerp_vec4_u8 Lerp.c0 Lerp.c1 126 = 0x827E0000 := by decide
  have e2 : lerp_vec4_u8 0 SPHERE_COLOR 230 = 0xB42D2D00 := by decide
  have h1 := charToWord_shape s (instr Lerp.c0 Lerp.c1 126)
  have h2 := charToWord_shape s (instr 0 SPHERE_COLOR 230)
  refine ⟨e1, ?_, e2, ?_⟩
  · rw [e1]
    unfold lerp_vec4_u8_asm
    omega
  · rw [e2]
    unfold lerp_vec4_u8_asm
    omega

/-- The inline-asm branch of `dot3` hands on the 32-bit result of its instruction unchanged:
it declares an `int32_t result` of its own, which the blend does not. -/
theorem dot3_asm_passes_result (instr : Nat → Nat → Int) (a b : Nat)
    (h1 : -2147483648 ≤ instr a b) (h2 : instr a b < 2147483648) :
    dot3_asm instr a b = instr a b := by
  unfold dot3_asm
  exact wrapI32_of_range _ h1 h2

/-- With `denom` equal to zero the inside test fails, whatever the weights. -/
theorem inside_of_denom_zero (a b c : Int) : Lerp.inside 0 a b c = false := by
  unfold Lerp.inside
  simp

/-- C14 as stated fails: for the collinear vertices `(25,230)`, `(230,230)`, `(127,230)`
the value of `denom` is 0, and no pixel of the framebuffer passes the inside test or is left
without a word, so the division by `denom` is never reached. -/
theorem degenerate_triangle_never_divides :
    Lerp.denom (Lerp.VEC4_U8 25 230 0 0) (Lerp.VEC4_U8 230 230 0 0) (Lerp.VEC4_U8 127 230 0 0) = 0
      ∧ ¬ ∃ x y : Int, 0 ≤ x ∧ x < 256 ∧ 0 ≤ y ∧ y < 256
          ∧ (Lerp.insideAt (Lerp.VEC4_U8 25 230 0 0) (Lerp.VEC4_U8 230 230 0 0)
                (Lerp.VEC4_U8 127 230 0 0) x y = true
              ∨ Lerp.trianglePixel (Lerp.VEC4_U8 25 230 0 0) (Lerp.VEC4_U8 230 230 0 0)
                (Lerp.VEC4_U8 127 230 0 0) Lerp.c0 Lerp.c1 Lerp.c2 x y = none) := by
  have hd : Lerp.denom (Lerp.VEC4_U8 25 230 0 0) (Lerp.VEC4_U8 230 230 0 0)
      (Lerp.VEC4_U8 127 230 0 0) = 0 := by decide
  refine ⟨hd, ?_⟩
  rintro ⟨x, y, _, _, _, _, h⟩
  have hin : Lerp.insideAt (Lerp.VEC4_U8 25 230 0 0) (Lerp.VEC4_U8 230 230 0 0)
      (Lerp.VEC4_U8 127 230 0 0) x y = false := by
    unfold Lerp.insideAt
    rw [hd]
    exact inside_of_denom_zero _ _ _
  rcases h with h | h
  · rw [hin] at h
    exact Bool.false_ne_true h
  · unfold Lerp.trianglePixel at h
    rw [hin] at h
    simp at h

/-- C14 as amended: when `denom` is 0 the inside test fails at every pixel, the pixel is
given the background colour, and the division by `denom` is not reached. -/
theorem degenerate_triangle_is_background (v0 v1 v2 c0 c1 c2 : Nat) (x y : Int)
    (hd : Lerp.denom v0 v1 v2 = 0) :
    Lerp.insideAt v0 v1 v2 x y = false
      ∧ Lerp.trianglePixel v0 v1 v2 c0 c1 c2 x y = some Lerp.BACKGROUND_COLOR := by
  have hin : Lerp.insideAt v0 v1 v2 x y = false := by
    unfold Lerp.insideAt
    rw [hd]
    exact inside_of_denom_zero _ _ _
  refine ⟨hin, ?_⟩
  unfold Lerp.trianglePixel
  rw [hin]
  rfl

/-- Witness of the amended C14 at the collinear vertices `(25,230)`, `(230,230)`,
`(127,230)` and the pixel `(127, 230)`. -/
theorem degenerate_triangle_is_background_witness :
    Lerp.insideAt (Lerp.VEC4_U8 25 230 0 0) (Lerp.VEC4_U8 230 230 0 0)
        (Lerp.VEC4_U8 127 230 0 0) 127 230 = false
      ∧ Lerp.trianglePixel (Lerp.VEC4_U8 25 230 0 0) (Lerp.VEC4_U8 230 230 0 0)
          (Lerp.VEC4_U8 127 230 0 0) Lerp.c0 Lerp.c1 Lerp.c2 127 230
        = some Lerp.BACKGROUND_COLOR :=
  degenerate_triangle_is_background (Lerp.VEC4_U8 25 230 0 0) (Lerp.VEC4_U8 230 230 0 0)
    (Lerp.VEC4_U8 127 230 0 0) Lerp.c0 Lerp.c1 Lerp.c2 127 230 (by decide)

/-- Truncating quotient by a positive divisor stays within `[-k, k]` when the dividend
stays within `[-k*b, k*b]`. -/
theorem tdiv_bound (a b k : Int) (hb : 0 < b) (hk : 0 ≤ k) (h1 : -(k * b) ≤ a) (h2 : a ≤ k * b) :
    -k ≤ Int.tdiv a b ∧ Int.tdiv a b ≤ k := by
  rw [tdiv_eq_ite a b hb]
  split
  · have hq0 : 0 ≤ a / b := Int.ediv_nonneg (by assumption) (by omega)
    have hq1 : a / b ≤ k := Int.ediv_le_of_le_mul hb h2
    omega
  · have hq0 : 0 ≤ (-a) / b := Int.ediv_nonneg (by omega) (by omega)
    have hq1 : (-a) / b ≤ k := Int.ediv_le_of_le_mul hb (by omega)
    omega

/-- Truncating quotient by a positive divisor is zero only when the dividend is smaller than
the divisor in absolute value. -/
theorem tdiv_eq_zero_bound (a b : Int) (hb : 0 < b) (h : Int.tdiv a b = 0) : -b < a ∧ a < b := by
  rw [tdiv_eq_ite a b hb] at h
  split at h
  · have h1 := Int.lt_ediv_add_one_mul_self a hb
    rw [h] at h1
    omega
  · have h1 := Int.lt_ediv_add_one_mul_self (-a) hb
    have h2 : (-a) / b = 0 := by omega
    rw [h2] at h1
    omega

/-- Squared length vanishes exactly on the zero vector. -/
theorem len2_eq_zero_iff (v : Nat) :
    len2 v = 0 ↔ (castI8 (VEC4_X v) = 0 ∧ castI8 (VEC4_Y v) = 0 ∧ castI8 (VEC4_Z v) = 0) := by
  unfold len2
  constructor
  · intro h
    have hx := mul_self_nonneg (castI8 (VEC4_X v))
    have hy := mul_self_nonneg (castI8 (VEC4_Y v))
    have hz := mul_self_nonneg (castI8 (VEC4_Z v))
    refine ⟨?_, ?_, ?_⟩
    · exact mul_self_eq_zero.mp (by omega)
    · exact mul_self_eq_zero.mp (by omega)
    · exact mul_self_eq_zero.mp (by omega)
  · rintro ⟨hx, hy, hz⟩
    rw [hx, hy, hz]
    norm_num

/-- C17: for every configured light direction `v`, the divisor `light_len` is zero exactly
when the three signed components of `v` are zero, and exactly then the normalisation has no
value (it divides by zero). -/
theorem light_len_zero_iff (v : Nat) :
    (isqrt (len2 v) = some 0
        ↔ (castI8 (VEC4_X v) = 0 ∧ castI8 (VEC4_Y v) = 0 ∧ castI8 (VEC4_Z v) = 0))
      ∧ (normalizeVec v = none
        ↔ (castI8 (VEC4_X v) = 0 ∧ castI8 (VEC4_Y v) = 0 ∧ castI8 (VEC4_Z v) = 0)) := by
  rw [← len2_eq_zero_iff]
  have h0 := len2_nonneg v
  by_cases hz : len2 v = 0
  · constructor
    · exact ⟨fun _ => hz, fun _ => by rw [hz]; decide⟩
    · refine ⟨fun _ => hz, fun _ => ?_⟩
      unfold normalizeVec
      rw [hz]
      have e : isqrt 0 = some 0 := by decide
      rw [e]
      simp [cdiv]
  · obtain ⟨len, hlen, h1, _, _, hn⟩ := normalizeVec_of_pos v (by omega)
    constructor
    · refine ⟨fun h => ?_, fun h => absurd h hz⟩
      rw [hlen] at h
      have := Option.some.inj h
      omega
    · refine ⟨fun h => ?_, fun h => absurd h hz⟩
      rw [hn] at h
      exact absurd h (by simp)

/-- Component of a vector is at most the floor root of its squared length. -/
theorem abs_le_of_sq_lt (c len s : Int) (hlen : 0 ≤ len) (hc : c * c ≤ s)
    (hs : s < (len + 1) * (len + 1)) : -len ≤ c ∧ c ≤ len := by
  constructor
  · by_contra h
    have : len + 1 ≤ -c := by omega
    nlinarith
  · by_contra h
    have : len + 1 ≤ c := by omega
    nlinarith

/-- C16: the normalisation step applied to a vector with signed 8-bit components, not all
zero, has a value; each of its components, read back as a signed byte, is the quotient
`(c*127)/len` itself and lies in `[-127, 127]`, and its W byte is 0. -/
theorem normalizeVec_components (v : Nat)
    (hv : ¬ (castI8 (VEC4_X v) = 0 ∧ castI8 (VEC4_Y v) = 0 ∧ castI8 (VEC4_Z v) = 0)) :
    ∃ len n, isqrt (len2 v) = some len ∧ 0 < len ∧ normalizeVec v = some n
      ∧ castI8 (VEC4_X n) = Int.tdiv (castI8 (VEC4_X v) * 127) len
      ∧ castI8 (VEC4_Y n) = Int.tdiv (castI8 (VEC4_Y v) * 127) len
      ∧ castI8 (VEC4_Z n) = Int.tdiv (castI8 (VEC4_Z v) * 127) len
      ∧ (-127 ≤ castI8 (VEC4_X n) ∧ castI8 (VEC4_X n) ≤ 127)
      ∧ (-127 ≤ castI8 (VEC4_Y n) ∧ castI8 (VEC4_Y n) ≤ 127)
      ∧ (-127 ≤ castI8 (VEC4_Z n) ∧ castI8 (VEC4_Z n) ≤ 127)
      ∧ VEC4_W n = 0 := by
  have h0 := len2_nonneg v
  have hne : len2 v ≠ 0 := fun h => hv ((len2_eq_zero_iff v).mp h)
  obtain ⟨len, hlen, h1, h2, h3, hn⟩ := normalizeVec_of_pos v (by omega)
  have hxx := mul_self_nonneg (castI8 (VEC4_X v))
  have hyy := mul_self_nonneg (castI8 (VEC4_Y v))
  have hzz := mul_self_nonneg (castI8 (VEC4_Z v))
  have hl2 : len2 v = castI8 (VEC4_X v) * castI8 (VEC4_X v)
      + castI8 (VEC4_Y v) * castI8 (VEC4_Y v) + castI8 (VEC4_Z v) * castI8 (VEC4_Z v) := rfl
  have bx := abs_le_of_sq_lt (castI8 (VEC4_X v)) len (len2 v) (by omega) (by omega) h3
  have bY := abs_le_of_sq_lt (castI8 (VEC4_Y v)) len (len2 v) (by omega) (by omega) h3
  have bz := abs_le_of_sq_lt (castI8 (VEC4_Z v)) len (len2 v) (by omega) (by omega) h3
  have qx := tdiv_bound (castI8 (VEC4_X v) * 127) len 127 (by omega) (by norm_num)
    (by omega) (by omega)
  have qy := tdiv_bound (castI8 (VEC4_Y v) * 127) len 127 (by omega) (by norm_num)
    (by omega) (by omega)
  have qz := tdiv_bound (castI8 (VEC4_Z v) * 127) len 127 (by omega) (by norm_num)
    (by omega) (by omega)
  have ex : castI8 (VEC4_X (VEC4_I8 (Int.tdiv (castI8 (VEC4_X v) * 127) len)
      (Int.tdiv (castI8 (VEC4_Y v) * 127) len) (Int.tdiv (castI8 (VEC4_Z v) * 127) len) 0))
      = Int.tdiv (castI8 (VEC4_X v) * 127) len := by
    rw [VEC4_X_I8, castI8_and255]
    exact castI8_of_range _ (by omega) (by omega)
  have ey : castI8 (VEC4_Y (VEC4_I8 (Int.tdiv (castI8 (VEC4_X v) * 127) len)
      (Int.tdiv (castI8 (VEC4_Y v) * 127) len) (Int.tdiv (castI8 (VEC4_Z v) * 127) len) 0))
      = Int.tdiv (castI8 (VEC4_Y v) * 127) len := by
    rw [VEC4_Y_I8, castI8_and255]
    exact castI8_of_range _ (by omega) (by omega)
  have ez : castI8 (VEC4_Z (VEC4_I8 (Int.tdiv (castI8 (VEC4_X v) * 127) len)
      (Int.tdiv (castI8 (VEC4_Y v) * 127) len) (Int.tdiv (castI8 (VEC4_Z v) * 127) len) 0))
      = Int.tdiv (castI8 (VEC4_Z v) * 127) len := by
    rw [VEC4_Z_I8, castI8_and255]
    exact castI8_of_range _ (by omega) (by omega)
  refine ⟨len, _, hlen, by omega, hn, ex, ey, ez, ?_, ?_, ?_, ?_⟩
  · rw [ex]; exact qx
  · rw [ey]; exact qy
  · rw [ez]; exact qz
  · rw [VEC4_W_I8]; decide

/-- Witness of C16 at the configured light direction. -/
theorem normalizeVec_components_witness :
    ∃ len n, isqrt (len2 LIGHT_DIR) = some len ∧ 0 < len ∧ normalizeVec LIGHT_DIR = some n
      ∧ castI8 (VEC4_X n) = Int.tdiv (castI8 (VEC4_X LIGHT_DIR) * 127) len
      ∧ castI8 (VEC4_Y n) = Int.tdiv (castI8 (VEC4_Y LIGHT_DIR) * 127) len
      ∧ castI8 (VEC4_Z n) = Int.tdiv (castI8 (VEC4_Z LIGHT_DIR) * 127) len
      ∧ (-127 ≤ castI8 (VEC4_X n) ∧ castI8 (VEC4_X n) ≤ 127)
      ∧ (-127 ≤ castI8 (VEC4_Y n) ∧ castI8 (VEC4_Y n) ≤ 127)
      ∧ (-127 ≤ castI8 (VEC4_Z n) ∧ castI8 (VEC4_Z n) ≤ 127)
      ∧ VEC4_W n = 0 :=
  normalizeVec_components LIGHT_DIR (by decide)

/-- Arithmetic core of the positivity of `n_len`: the three quotients cannot all vanish. -/
theorem normal_quotients_not_all_zero (R x y nz : Int) (hR : 1 ≤ R) (hz0 : 0 ≤ nz)
    (hz2 : R * R - (x * x + y * y) < (nz + 1) * (nz + 1))
    (bx : -R < x * 127 ∧ x * 127 < R) (bY : -R < y * 127 ∧ y * 127 < R)
    (bz : -R < nz * 127 ∧ nz * 127 < R) : False := by
  have e1 : (x * 127) * (x * 127) ≤ (R - 1) * (R - 1) := by
    nlinarith [mul_nonneg (by omega : 0 ≤ R - 1 - x * 127) (by omega : 0 ≤ R - 1 + x * 127)]
  have e2 : (y * 127) * (y * 127) ≤ (R - 1) * (R - 1) := by
    nlinarith [mul_nonneg (by omega : 0 ≤ R - 1 - y * 127) (by omega : 0 ≤ R - 1 + y * 127)]
  have e3 : (nz * 127 + 127) * (nz * 127 + 127) ≤ (R + 126) * (R + 126) :=
    mul_self_le_mul_self (by omega) (by omega)
  have e4 : R ≤ R * R := by nlinarith
  nlinarith

/-- Unnormalised normal for a radius whose square fits in 32 bits: it has a value, its
signed components are the three quotients, and they are not all zero. -/
theorem rawNormal_general (R x y : Int) (hR1 : 1 ≤ R) (hR2 : R ≤ 46340)
    (h : x * x + y * y ≤ R * R) :
    ∃ n0 nz, isqrt (R * R - (x * x + y * y)) = some nz ∧ rawNormal R x y = some n0
      ∧ castI8 (VEC4_X n0) = Int.tdiv (x * 127) R
      ∧ castI8 (VEC4_Y n0) = Int.tdiv (y * 127) R
      ∧ castI8 (VEC4_Z n0) = Int.tdiv (nz * 127) R
      ∧ 1 ≤ len2 n0 := by
  have hRR : R * R ≤ 2147395600 := by nlinarith
  have hxx : 0 ≤ x * x := mul_self_nonneg x
  have hyy : 0 ≤ y * y := mul_self_nonneg y
  have hx1 : -R ≤ x := by nlinarith
  have hx2 : x ≤ R := by nlinarith
  have hy1 : -R ≤ y := by nlinarith
  have hy2 : y ≤ R := by nlinarith
  have hw : wrapI32 (wrapI32 (R * R) - wrapI32 (wrapI32 (x * x) + wrapI32 (y * y)))
      = R * R - (x * x + y * y) := by
    rw [wrapI32_of_range (x * x) (by omega) (by omega),
      wrapI32_of_range (y * y) (by omega) (by omega),
      wrapI32_of_range (x * x + y * y) (by omega) (by omega),
      wrapI32_of_range (R * R) (by omega) (by omega),
      wrapI32_of_range _ (by omega) (by omega)]
  obtain ⟨nz, hz, hz0, hz1, hz2⟩ := isqrt_floor (R * R - (x * x + y * y)) (by omega) (by omega)
  have hzR : nz ≤ R := by nlinarith
  have qx := tdiv_bound (x * 127) R 127 (by omega) (by norm_num) (by omega) (by omega)
  have qy := tdiv_bound (y * 127) R 127 (by omega) (by norm_num) (by omega) (by omega)
  have qz := tdiv_bound (nz * 127) R 127 (by omega) (by norm_num) (by omega) (by omega)
  have cx : castI8 (castI8 (Int.tdiv (x * 127) R)) = Int.tdiv (x * 127) R := by
    rw [castI8_of_range (Int.tdiv (x * 127) R) (by omega) (by omega),
      castI8_of_range (Int.tdiv (x * 127) R) (by omega) (by omega)]
  have cy : castI8 (castI8 (Int.tdiv (y * 127) R)) = Int.tdiv (y * 127) R := by
    rw [castI8_of_range (Int.tdiv (y * 127) R) (by omega) (by omega),
      castI8_of_range (Int.tdiv (y * 127) R) (by omega) (by omega)]
  have cz : castI8 (castI8 (Int.tdiv (nz * 127) R)) = Int.tdiv (nz * 127) R := by
    rw [castI8_of_range (Int.tdiv (nz * 127) R) (by omega) (by omega),
      castI8_of_range (Int.tdiv (nz * 127) R) (by omega) (by omega)]
  have ex : castI8 (VEC4_X (VEC4_I8 (castI8 (Int.tdiv (x * 127) R))
      (castI8 (Int.tdiv (y * 127) R)) (castI8 (Int.tdiv (nz * 127) R)) 0))
      = Int.tdiv (x * 127) R := by
    rw [VEC4_X_I8, castI8_and255, cx]
  have ey : castI8 (VEC4_Y (VEC4_I8 (castI8 (Int.tdiv (x * 127) R))
      (castI8 (Int.tdiv (y * 127) R)) (castI8 (Int.tdiv (nz * 127) R)) 0))
      = Int.tdiv (y * 127) R := by
    rw [VEC4_Y_I8, castI8_and255, cy]
  have ez : castI8 (VEC4_Z (VEC4_I8 (castI8 (Int.tdiv (x * 127) R))
      (castI8 (Int.tdiv (y * 127) R)) (castI8 (Int.tdiv (nz * 127) R)) 0))
      = Int.tdiv (nz * 127) R := by
    rw [VEC4_Z_I8, castI8_and255, cz]
  refine ⟨_, nz, hz, ?_, ex, ey, ez, ?_⟩
  · unfold rawNormal
    simp only [hw, hz]
    rw [wrapI32_of_range (x * 127) (by omega) (by omega),
      wrapI32_of_range (y * 127) (by omega) (by omega)]
    simp [wrapI32_of_range (nz * 127) (by omega) (by omega), cdiv_of_pos _ R (by omega)]
  · unfold len2
    rw [ex, ey, ez]
    have sx := mul_self_nonneg (Int.tdiv (x * 127) R)
    have sy := mul_self_nonneg (Int.tdiv (y * 127) R)
    have sz := mul_self_nonneg (Int.tdiv (nz * 127) R)
    by_contra hc
    have h0x : Int.tdiv (x * 127) R = 0 := mul_self_eq_zero.mp (by omega)
    have h0y : Int.tdiv (y * 127) R = 0 := mul_self_eq_zero.mp (by omega)
    have h0z : Int.tdiv (nz * 127) R = 0 := mul_self_eq_zero.mp (by omega)
    have bx := tdiv_eq_zero_bound _ R (by omega) h0x
    have bY := tdiv_eq_zero_bound _ R (by omega) h0y
    have bz := tdiv_eq_zero_bound _ R (by omega) h0z
    exact hc (normal_quotients_not_all_zero R x y nz hR1 hz0 hz2 bx bY bz).elim

/-- C15 as stated fails: for the radius `R = 65536` the product `R*R` leaves the 32-bit
range and is 0, the centre pixel `(0, 0)` passes the on-sphere test, its unnormalised normal
is the zero vector, `n_len` is 0 and the renormalisation divides by zero. -/
theorem normal_length_zero_at_large_radius :
    (1 : Int) ≤ 65536 ∧ (0 : Int) * 0 + 0 * 0 ≤ 65536 * 65536
      ∧ wrapI32 (65536 * 65536) = 0
      ∧ rawNormal 65536 0 0 = some 0
      ∧ isqrt (len2 0) = some 0
      ∧ normalizeVec 0 = none
      ∧ pixelColor 65536 KA 0x39FB7300 BACKGROUND_COLOR SPHERE_COLOR 0 0 = none := by
  decide

/-- C15 as amended: for every radius `R` with `1 ≤ R ≤ 46340` (so that `R*R` fits in 32
bits) and every pixel with `x*x + y*y ≤ R*R`, the unnormalised normal
`(x*127/R, y*127/R, isqrt(R*R - x*x - y*y)*127/R)` has a value, its length `n_len` is
strictly positive, and the renormalisation has a value. -/
theorem normal_length_positive (R x y : Int) (hR1 : 1 ≤ R) (hR2 : R ≤ 46340)
    (h : x * x + y * y ≤ R * R) :
    ∃ n0 nz n_len n, isqrt (R * R - (x * x + y * y)) = some nz
      ∧ rawNormal R x y = some n0
      ∧ castI8 (VEC4_X n0) = Int.tdiv (x * 127) R
      ∧ castI8 (VEC4_Y n0) = Int.tdiv (y * 127) R
      ∧ castI8 (VEC4_Z n0) = Int.tdiv (nz * 127) R
      ∧ isqrt (len2 n0) = some n_len ∧ 0 < n_len
      ∧ normalizeVec n0 = some n := by
  obtain ⟨n0, nz, hz, hn0, ex, ey, ez, hlen⟩ := rawNormal_general R x y hR1 hR2 h
  obtain ⟨len, hl, h1, _, _, hn⟩ := normalizeVec_of_pos n0 hlen
  exact ⟨n0, nz, len, _, hz, hn0, ex, ey, ez, hl, by omega, hn⟩

/-- Witness of the amended C15 at the configured radius 80 and the boundary pixel `(80, 0)`. -/
theorem normal_length_positive_witness :
    ∃ n0 nz n_len n, isqrt ((80 : Int) * 80 - (80 * 80 + 0 * 0)) = some nz
      ∧ rawNormal 80 80 0 = some n0
      ∧ castI8 (VEC4_X n0) = Int.tdiv (80 * 127) 80
      ∧ castI8 (VEC4_Y n0) = Int.tdiv (0 * 127) 80
      ∧ castI8 (VEC4_Z n0) = Int.tdiv (nz * 127) 80
      ∧ isqrt (len2 n0) = some n_len ∧ 0 < n_len
      ∧ normalizeVec n0 = some n :=
  normal_length_positive 80 80 0 (by decide) (by decide) (by decide)

/-! ## Triangle weights as exact integers -/

theorem wrapU32_modEq (n : Nat) : Int.ModEq 4294967296 (wrapU32 n : Int) (n : Int) := by
  unfold Int.ModEq wrapU32
  omega

theorem subU32_modEq (p q : Nat) (P Q : Int) (hp : Int.ModEq 4294967296 (p : Int) P)
    (hq : Int.ModEq 4294967296 (q : Int) Q) :
    Int.ModEq 4294967296 (subU32 p q : Int) (P - Q) := by
  have h : Int.ModEq 4294967296 (subU32 p q : Int) ((p : Int) - (q : Int)) := by
    unfold Int.ModEq subU32
    omega
  exact h.trans (hp.sub hq)

theorem castU32OfInt_modEq (x : Int) : Int.ModEq 4294967296 (Lerp.castU32OfInt x : Int) x := by
  unfold Int.ModEq Lerp.castU32OfInt
  omega

/-- Sum of two products of differences formed in `unsigned int` and stored in an
`int32_t` is the exact integer value, when that value fits in 32 bits. -/
theorem cross_exact (a b c d e f g h : Nat) (A B C D E F G H : Int)
    (ha : Int.ModEq 4294967296 (a : Int) A) (hb : Int.ModEq 4294967296 (b : Int) B)
    (hc : Int.ModEq 4294967296 (c : Int) C) (hd : Int.ModEq 4294967296 (d : Int) D)
    (he : Int.ModEq 4294967296 (e : Int) E) (hf : Int.ModEq 4294967296 (f : Int) F)
    (hg : Int.ModEq 4294967296 (g : Int) G) (hh : Int.ModEq 4294967296 (h : Int) H)
    (h1 : -2147483648 ≤ (A - B) * (C - D) + (E - F) * (G - H))
    (h2 : (A - B) * (C - D) + (E - F) * (G - H) < 2147483648) :
    Lerp.castI32 (wrapU32 (wrapU32 (subU32 a b * subU32 c d) + wrapU32 (subU32 e f * subU32 g h)))
      = (A - B) * (C - D) + (E - F) * (G - H) := by
  have m1 : Int.ModEq 4294967296 ((wrapU32 (subU32 a b * subU32 c d) : Nat) : Int)
      ((A - B) * (C - D)) := by
    refine (wrapU32_modEq _).trans ?_
    rw [Nat.cast_mul]
    exact (subU32_modEq a b A B ha hb).mul (subU32_modEq c d C D hc hd)
  have m2 : Int.ModEq 4294967296 ((wrapU32 (subU32 e f * subU32 g h) : Nat) : Int)
      ((E - F) * (G - H)) := by
    refine (wrapU32_modEq _).trans ?_
    rw [Nat.cast_mul]
    exact (subU32_modEq e f E F he hf).mul (subU32_modEq g h G H hg hh)
  have m3 : Int.ModEq 4294967296
      ((wrapU32 (wrapU32 (subU32 a b * subU32 c d) + wrapU32 (subU32 e f * subU32 g h)) : Nat)
        : Int) ((A - B) * (C - D) + (E - F) * (G - H)) := by
    refine (wrapU32_modEq _).trans ?_
    rw [Nat.cast_add]
    exact m1.add m2
  unfold Int.ModEq at m3
  unfold Lerp.castI32 wrapI32
  omega

theorem Lerp_VEC_X_lt (v : Nat) (hv : v < 4294967296) : Lerp.VEC_X v < 256 := by
  have h : Lerp.VEC_X v = v / 16777216 := VEC4_X_eq v
  omega

theorem Lerp_VEC_Y_lt (v : Nat) : Lerp.VEC_Y v < 256 := by
  have h : Lerp.VEC_Y v = v / 65536 % 256 := VEC4_Y_eq v
  omega

/-- Product of two differences of 8-bit values. -/
theorem mul_bound_255 (u v : Int) (hu1 : -255 ≤ u) (hu2 : u ≤ 255) (hv1 : -255 ≤ v)
    (hv2 : v ≤ 255) : -65025 ≤ u * v ∧ u * v ≤ 65025 := by
  constructor
  · nlinarith [mul_nonneg (by omega : 0 ≤ 255 + u) (by omega : 0 ≤ 255 - v),
      mul_nonneg (by omega : 0 ≤ 255 - u) (by omega : 0 ≤ 255 + v)]
  · nlinarith [mul_nonneg (by omega : 0 ≤ 255 + u) (by omega : 0 ≤ 255 + v),
      mul_nonneg (by omega : 0 ≤ 255 - u) (by omega : 0 ≤ 255 - v)]

/-- Variable `denom` for 8-bit vertex coordinates is the exact integer value of its
expression. -/
theorem denom_exact (v0 v1 v2 : Nat) (h0 : v0 < 4294967296) (h1 : v1 < 4294967296)
    (h2 : v2 < 4294967296) :
    Lerp.denom v0 v1 v2
        = ((Lerp.VEC_Y v1 : Int) - Lerp.VEC_Y v2) * ((Lerp.VEC_X v0 : Int) - Lerp.VEC_X v2)
          + ((Lerp.VEC_X v2 : Int) - Lerp.VEC_X v1) * ((Lerp.VEC_Y v0 : Int) - Lerp.VEC_Y v2)
      ∧ -130050 ≤ Lerp.denom v0 v1 v2 ∧ Lerp.denom v0 v1 v2 ≤ 130050 := by
  have x0 := Lerp_VEC_X_lt v0 h0
  have x1 := Lerp_VEC_X_lt v1 h1
  have x2 := Lerp_VEC_X_lt v2 h2
  have y0 := Lerp_VEC_Y_lt v0
  have y1 := Lerp_VEC_Y_lt v1
  have y2 := Lerp_VEC_Y_lt v2
  have b1 := mul_bound_255 ((Lerp.VEC_Y v1 : Int) - Lerp.VEC_Y v2)
    ((Lerp.VEC_X v0 : Int) - Lerp.VEC_X v2) (by omega) (by omega) (by omega) (by omega)
  have b2 := mul_bound_255 ((Lerp.VEC_X v2 : Int) - Lerp.VEC_X v1)
    ((Lerp.VEC_Y v0 : Int) - Lerp.VEC_Y v2) (by omega) (by omega) (by omega) (by omega)
  have hb : -130050 ≤ ((Lerp.VEC_Y v1 : Int) - Lerp.VEC_Y v2) * ((Lerp.VEC_X v0 : Int) - Lerp.VEC_X v2)
      + ((Lerp.VEC_X v2 : Int) - Lerp.VEC_X v1) * ((Lerp.VEC_Y v0 : Int) - Lerp.VEC_Y v2)
      ∧ ((Lerp.VEC_Y v1 : Int) - Lerp.VEC_Y v2) * ((Lerp.VEC_X v0 : Int) - Lerp.VEC_X v2)
          + ((Lerp.VEC_X v2 : Int) - Lerp.VEC_X v1) * ((Lerp.VEC_Y v0 : Int) - Lerp.VEC_Y v2) ≤ 130050 :=
    ⟨by omega, by omega⟩
  have e := cross_exact (Lerp.VEC_Y v1) (Lerp.VEC_Y v2) (Lerp.VEC_X v0) (Lerp.VEC_X v2)
    (Lerp.VEC_X v2) (Lerp.VEC_X v1) (Lerp.VEC_Y v0) (Lerp.VEC_Y v2) _ _ _ _ _ _ _ _
    (Int.ModEq.refl _) (Int.ModEq.refl _) (Int.ModEq.refl _) (Int.ModEq.refl _)
    (Int.ModEq.refl _) (Int.ModEq.refl _) (Int.ModEq.refl _) (Int.ModEq.refl _)
    (by omega) (by omega)
  unfold Lerp.denom
  rw [e]
  exact ⟨rfl, hb⟩

/-- Variable `w0` for 8-bit vertex coordinates and a pixel of the framebuffer is the exact
integer value of its expression. -/
theorem w0_exact (v1 v2 : Nat) (x y : Int) (h1 : v1 < 4294967296) (h2 : v2 < 4294967296)
    (hx1 : 0 ≤ x) (hx2 : x < 256) (hy1 : 0 ≤ y) (hy2 : y < 256) :
    Lerp.w0 v1 v2 x y
        = ((Lerp.VEC_Y v1 : Int) - Lerp.VEC_Y v2) * (x - Lerp.VEC_X v2)
          + ((Lerp.VEC_X v2 : Int) - Lerp.VEC_X v1) * (y - Lerp.VEC_Y v2)
      ∧ -130050 ≤ Lerp.w0 v1 v2 x y ∧ Lerp.w0 v1 v2 x y ≤ 130050 := by
  have x1 := Lerp_VEC_X_lt v1 h1
  have x2 := Lerp_VEC_X_lt v2 h2
  have y1 := Lerp_VEC_Y_lt v1
  have y2 := Lerp_VEC_Y_lt v2
  have b1 := mul_bound_255 ((Lerp.VEC_Y v1 : Int) - Lerp.VEC_Y v2)
    (x - Lerp.VEC_X v2) (by omega) (by omega) (by omega) (by omega)
  have b2 := mul_bound_255 ((Lerp.VEC_X v2 : Int) - Lerp.VEC_X v1)
    (y - Lerp.VEC_Y v2) (by omega) (by omega) (by omega) (by omega)
  have hb : -130050 ≤ ((Lerp.VEC_Y v1 : Int) - Lerp.VEC_Y v2) * (x - Lerp.VEC_X v2)
      + ((Lerp.VEC_X v2 : Int) - Lerp.VEC_X v1) * (y - Lerp.VEC_Y v2)
      ∧ ((Lerp.VEC_Y v1 : Int) - Lerp.VEC_Y v2) * (x - Lerp.VEC_X v2)
          + ((Lerp.VEC_X v2 : Int) - Lerp.VEC_X v1) * (y - Lerp.VEC_Y v2) ≤ 130050 :=
    ⟨by omega, by omega⟩
  have e := cross_exact (Lerp.VEC_Y v1) (Lerp.VEC_Y v2) (Lerp.castU32OfInt x) (Lerp.VEC_X v2)
    (Lerp.VEC_X v2) (Lerp.VEC_X v1) (Lerp.castU32OfInt y) (Lerp.VEC_Y v2) _ _ x _ _ _ y _
    (Int.ModEq.refl _) (Int.ModEq.refl _) (castU32OfInt_modEq x) (Int.ModEq.refl _)
    (Int.ModEq.refl _) (Int.ModEq.refl _) (castU32OfInt_modEq y) (Int.ModEq.refl _)
    (by omega) (by omega)
  unfold Lerp.w0
  rw [e]
  exact ⟨rfl, hb⟩

/-- Variable `w1` for 8-bit vertex coordinates and a pixel of the framebuffer is the exact
integer value of its expression. -/
theorem w1_exact (v0 v2 : Nat) (x y : Int) (h0 : v0 < 4294967296) (h2 : v2 < 4294967296)
    (hx1 : 0 ≤ x) (hx2 : x < 256) (hy1 : 0 ≤ y) (hy2 : y < 256) :
    Lerp.w1 v0 v2 x y
        = ((Lerp.VEC_Y v2 : Int) - Lerp.VEC_Y v0) * (x - Lerp.VEC_X v2)
          + ((Lerp.VEC_X v0 : Int) - Lerp.VEC_X v2) * (y - Lerp.VEC_Y v2)
      ∧ -130050 ≤ Lerp.w1 v0 v2 x y ∧ Lerp.w1 v0 v2 x y ≤ 130050 := by
  have x0 := Lerp_VEC_X_lt v0 h0
  have x2 := Lerp_VEC_X_lt v2 h2
  have y0 := Lerp_VEC_Y_lt v0
  have y2 := Lerp_VEC_Y_lt v2
  have b1 := mul_bound_255 ((Lerp.VEC_Y v2 : Int) - Lerp.VEC_Y v0)
    (x - Lerp.VEC_X v2) (by omega) (by omega) (by omega) (by omega)
  have b2 := mul_bound_255 ((Lerp.VEC_X v0 : Int) - Lerp.VEC_X v2)
    (y - Lerp.VEC_Y v2) (by omega) (by omega) (by omega) (by omega)
  have hb : -130050 ≤ ((Lerp.VEC_Y v2 : Int) - Lerp.VEC_Y v0) * (x - Lerp.VEC_X v2)
      + ((Lerp.VEC_X v0 : Int) - Lerp.VEC_X v2) * (y - Lerp.VEC_Y v2)
      ∧ ((Lerp.VEC_Y v2 : Int) - Lerp.VEC_Y v0) * (x - Lerp.VEC_X v2)
          + ((Lerp.VEC_X v0 : Int) - Lerp.VEC_X v2) * (y - Lerp.VEC_Y v2) ≤ 130050 :=
    ⟨by omega, by omega⟩
  have e := cross_exact (Lerp.VEC_Y v2) (Lerp.VEC_Y v0) (Lerp.castU32OfInt x) (Lerp.VEC_X v2)
    (Lerp.VEC_X v0) (Lerp.VEC_X v2) (Lerp.castU32OfInt y) (Lerp.VEC_Y v2) _ _ x _ _ _ y _
    (Int.ModEq.refl _) (Int.ModEq.refl _) (castU32OfInt_modEq x) (Int.ModEq.refl _)
    (Int.ModEq.refl _) (Int.ModEq.refl _) (castU32OfInt_modEq y) (Int.ModEq.refl _)
    (by omega) (by omega)
  unfold Lerp.w1
  rw [e]
  exact ⟨rfl, hb⟩

/-- Variable `w2` for 8-bit vertex coordinates and a pixel of the framebuffer is the exact
difference `denom - w0 - w1`. -/
theorem w2_exact (v0 v1 v2 : Nat) (x y : Int) (h0 : v0 < 4294967296) (h1 : v1 < 4294967296)
    (h2 : v2 < 4294967296) (hx1 : 0 ≤ x) (hx2 : x < 256) (hy1 : 0 ≤ y) (hy2 : y < 256) :
    Lerp.w2 v0 v1 v2 x y = Lerp.denom v0 v1 v2 - Lerp.w0 v1 v2 x y - Lerp.w1 v0 v2 x y := by
  have d := (denom_exact v0 v1 v2 h0 h1 h2).2
  have a := (w0_exact v1 v2 x y h1 h2 hx1 hx2 hy1 hy2).2
  have b := (w1_exact v0 v2 x y h0 h2 hx1 hx2 hy1 hy2).2
  unfold Lerp.w2
  rw [wrapI32_of_range (Lerp.denom v0 v1 v2 - Lerp.w0 v1 v2 x y) (by omega) (by omega),
    wrapI32_of_range _ (by omega) (by omega)]


/-- Inside test is unchanged when `denom` and the three weights change sign and the first
two weights change places. -/
theorem inside_neg_swap (d a b c : Int) : Lerp.inside (-d) (-b) (-a) (-c) = Lerp.inside d a b c := by
  unfold Lerp.inside
  rw [Bool.eq_iff_iff]
  simp only [Bool.or_eq_true, Bool.and_eq_true, decide_eq_true_eq]
  constructor
  · rintro (⟨⟨⟨h1, h2⟩, h3⟩, h4⟩ | ⟨⟨⟨h1, h2⟩, h3⟩, h4⟩)
    · right; exact ⟨⟨⟨by omega, by omega⟩, by omega⟩, by omega⟩
    · left; exact ⟨⟨⟨by omega, by omega⟩, by omega⟩, by omega⟩
  · rintro (⟨⟨⟨h1, h2⟩, h3⟩, h4⟩ | ⟨⟨⟨h1, h2⟩, h3⟩, h4⟩)
    · right; exact ⟨⟨⟨by omega, by omega⟩, by omega⟩, by omega⟩
    · left; exact ⟨⟨⟨by omega, by omega⟩, by omega⟩, by omega⟩

/-- C20: for all vertices with 8-bit coordinates and every pixel of the framebuffer,
exchanging `v0` and `v1` negates `denom`, maps the weights `(w0, w1, w2)` to
`(-w1, -w0, -w2)`, and leaves the result of the inside test unchanged. -/
theorem inside_test_winding (v0 v1 v2 : Nat) (x y : Int) (h0 : v0 < 4294967296)
    (h1 : v1 < 4294967296) (h2 : v2 < 4294967296) (hx1 : 0 ≤ x) (hx2 : x < 256) (hy1 : 0 ≤ y)
    (hy2 : y < 256) :
    Lerp.denom v1 v0 v2 = -Lerp.denom v0 v1 v2
      ∧ Lerp.w0 v0 v2 x y = -Lerp.w1 v0 v2 x y
      ∧ Lerp.w1 v1 v2 x y = -Lerp.w0 v1 v2 x y
      ∧ Lerp.w2 v1 v0 v2 x y = -Lerp.w2 v0 v1 v2 x y
      ∧ Lerp.insideAt v1 v0 v2 x y = Lerp.insideAt v0 v1 v2 x y := by
  have d1 := (denom_exact v0 v1 v2 h0 h1 h2).1
  have d2 := (denom_exact v1 v0 v2 h1 h0 h2).1
  have a1 := (w0_exact v1 v2 x y h1 h2 hx1 hx2 hy1 hy2).1
  have a2 := (w0_exact v0 v2 x y h0 h2 hx1 hx2 hy1 hy2).1
  have b1 := (w1_exact v0 v2 x y h0 h2 hx1 hx2 hy1 hy2).1
  have b2 := (w1_exact v1 v2 x y h1 h2 hx1 hx2 hy1 hy2).1
  have c1 := w2_exact v0 v1 v2 x y h0 h1 h2 hx1 hx2 hy1 hy2
  have c2 := w2_exact v1 v0 v2 x y h1 h0 h2 hx1 hx2 hy1 hy2
  have ed : Lerp.denom v1 v0 v2 = -Lerp.denom v0 v1 v2 := by rw [d1, d2]; ring
  have ea : Lerp.w0 v0 v2 x y = -Lerp.w1 v0 v2 x y := by rw [a2, b1]; ring
  have eb : Lerp.w1 v1 v2 x y = -Lerp.w0 v1 v2 x y := by rw [b2, a1]; ring
  have ec : Lerp.w2 v1 v0 v2 x y = -Lerp.w2 v0 v1 v2 x y := by
    rw [c1, c2, ed, ea, eb]; ring
  refine ⟨ed, ea, eb, ec, ?_⟩
  unfold Lerp.insideAt
  rw [ed, ea, eb, ec]
  exact inside_neg_swap _ _ _ _

/-- Witness of C20 at the configured triangle and the pixel `(127, 230)`. -/
theorem inside_test_winding_witness :
    Lerp.denom Lerp.v1 Lerp.v0 Lerp.v2 = -Lerp.denom Lerp.v0 Lerp.v1 Lerp.v2
      ∧ Lerp.w0 Lerp.v0 Lerp.v2 127 230 = -Lerp.w1 Lerp.v0 Lerp.v2 127 230
      ∧ Lerp.w1 Lerp.v1 Lerp.v2 127 230 = -Lerp.w0 Lerp.v1 Lerp.v2 127 230
      ∧ Lerp.w2 Lerp.v1 Lerp.v0 Lerp.v2 127 230 = -Lerp.w2 Lerp.v0 Lerp.v1 Lerp.v2 127 230
      ∧ Lerp.insideAt Lerp.v1 Lerp.v0 Lerp.v2 127 230
        = Lerp.insideAt Lerp.v0 Lerp.v1 Lerp.v2 127 230 :=
  inside_test_winding Lerp.v0 Lerp.v1 Lerp.v2 127 230 (by decide) (by decide) (by decide)
    (by decide) (by decide) (by decide) (by decide)

/-- Blend factors for a positive `denom`: both quotients lie in `[0, 255]` and their sum is
at most 255. -/
theorem blend_factor_core (D B C : Int) (hD : 0 < D) (hB : 0 ≤ B) (hC : 0 ≤ C)
    (hBC : B + C ≤ D) :
    0 ≤ Int.tdiv (B * 255) D ∧ Int.tdiv (B * 255) D ≤ 255
      ∧ 0 ≤ Int.tdiv (C * 255) D ∧ Int.tdiv (C * 255) D ≤ 255
      ∧ Int.tdiv (B * 255) D + Int.tdiv (C * 255) D ≤ 255 := by
  rw [Int.tdiv_eq_ediv (by omega) (by omega), Int.tdiv_eq_ediv (by omega) (by omega)]
  have q1 : 0 ≤ B * 255 / D := Int.ediv_nonneg (by omega) (by omega)
  have q2 : 0 ≤ C * 255 / D := Int.ediv_nonneg (by omega) (by omega)
  have m1 : B * 255 / D * D ≤ B * 255 := Int.ediv_mul_le _ (by omega)
  have m2 : C * 255 / D * D ≤ C * 255 := Int.ediv_mul_le _ (by omega)
  have hs : B * 255 / D + C * 255 / D ≤ 255 := by
    by_contra hc
    have h256 : 256 ≤ B * 255 / D + C * 255 / D := by omega
    have : 256 * D ≤ (B * 255 / D + C * 255 / D) * D := Int.mul_le_mul_of_nonneg_right h256 (by omega)
    have e : (B * 255 / D + C * 255 / D) * D = B * 255 / D * D + C * 255 / D * D := by ring
    omega
  exact ⟨q1, by omega, q2, by omega, hs⟩

/-- Division has a value when the divisor is not zero and the dividend is not `INT_MIN`. -/
theorem cdiv_of_dividend (a b : Int) (hb : b ≠ 0) (ha : -2147483648 < a) :
    cdiv a b = some (Int.tdiv a b) := by
  unfold cdiv
  rw [if_neg]
  omega

/-- Conversion to `uint8_t` keeps a value of `[0, 255]`. -/
theorem castU8OfInt_of_range (t : Int) (h0 : 0 ≤ t) (h1 : t ≤ 255) :
    (castU8OfInt t : Int) = t := by
  unfold castU8OfInt
  omega

/-- C18: for every triangle with 8-bit vertex coordinates and `denom` different from 0, at
every pixel of the framebuffer that passes the inside test both divisions have a value, the
blend factors `t1` and `t2` lie in `[0, 255]`, their sum is at most 255, and the conversion
to `uint8_t` does not change them. -/
theorem blend_factors_in_range (v0 v1 v2 : Nat) (x y : Int) (h0 : v0 < 4294967296)
    (h1 : v1 < 4294967296) (h2 : v2 < 4294967296) (hx1 : 0 ≤ x) (hx2 : x < 256) (hy1 : 0 ≤ y)
    (hy2 : y < 256) (hd : Lerp.denom v0 v1 v2 ≠ 0)
    (hin : Lerp.insideAt v0 v1 v2 x y = true) :
    ∃ t1 t2 : Int,
      cdiv (wrapI32 (Lerp.w1 v0 v2 x y * 255)) (Lerp.denom v0 v1 v2) = some t1
      ∧ cdiv (wrapI32 (Lerp.w2 v0 v1 v2 x y * 255)) (Lerp.denom v0 v1 v2) = some t2
      ∧ 0 ≤ t1 ∧ t1 ≤ 255 ∧ 0 ≤ t2 ∧ t2 ≤ 255 ∧ t1 + t2 ≤ 255
      ∧ (castU8OfInt t1 : Int) = t1 ∧ (castU8OfInt t2 : Int) = t2 := by
  have dB := (denom_exact v0 v1 v2 h0 h1 h2).2
  have aB := (w0_exact v1 v2 x y h1 h2 hx1 hx2 hy1 hy2).2
  have bB := (w1_exact v0 v2 x y h0 h2 hx1 hx2 hy1 hy2).2
  have c1 := w2_exact v0 v1 v2 x y h0 h1 h2 hx1 hx2 hy1 hy2
  unfold Lerp.insideAt Lerp.inside at hin
  simp only [Bool.or_eq_true, Bool.and_eq_true, decide_eq_true_eq] at hin
  generalize Lerp.denom v0 v1 v2 = D at *
  generalize Lerp.w0 v1 v2 x y = A at *
  generalize Lerp.w1 v0 v2 x y = B at *
  generalize Lerp.w2 v0 v1 v2 x y = C at *
  have hC : -390150 ≤ C ∧ C ≤ 390150 := by omega
  have e1 : cdiv (wrapI32 (B * 255)) D = some (Int.tdiv (B * 255) D) := by
    rw [wrapI32_of_range (B * 255) (by omega) (by omega)]
    exact cdiv_of_dividend _ D hd (by omega)
  have e2 : cdiv (wrapI32 (C * 255)) D = some (Int.tdiv (C * 255) D) := by
    rw [wrapI32_of_range (C * 255) (by omega) (by omega)]
    exact cdiv_of_dividend _ D hd (by omega)
  refine ⟨Int.tdiv (B * 255) D, Int.tdiv (C * 255) D, e1, e2, ?_⟩
  have key : 0 ≤ Int.tdiv (B * 255) D ∧ Int.tdiv (B * 255) D ≤ 255
      ∧ 0 ≤ Int.tdiv (C * 255) D ∧ Int.tdiv (C * 255) D ≤ 255
      ∧ Int.tdiv (B * 255) D + Int.tdiv (C * 255) D ≤ 255 := by
    rcases hin with ⟨⟨⟨p1, p2⟩, p3⟩, p4⟩ | ⟨⟨⟨p1, p2⟩, p3⟩, p4⟩
    · exact blend_factor_core D B C (by omega) (by omega) (by omega) (by omega)
    · have k := blend_factor_core (-D) (-B) (-C) (by omega) (by omega) (by omega) (by omega)
      have n1 : Int.tdiv (-B * 255) (-D) = Int.tdiv (B * 255) D := by
        rw [Int.neg_mul, Int.neg_tdiv_neg]
      have n2 : Int.tdiv (-C * 255) (-D) = Int.tdiv (C * 255) D := by
        rw [Int.neg_mul, Int.neg_tdiv_neg]
      rw [n1, n2] at k
      exact k
  obtain ⟨k1, k2, k3, k4, k5⟩ := key
  exact ⟨k1, k2, k3, k4, k5, castU8OfInt_of_range _ k1 k2, castU8OfInt_of_range _ k3 k4⟩

/-- Witness of C18 at the configured triangle and the pixel `(127, 230)`. -/
theorem blend_factors_in_range_witness :
    ∃ t1 t2 : Int,
      cdiv (wrapI32 (Lerp.w1 Lerp.v0 Lerp.v2 127 230 * 255))
          (Lerp.denom Lerp.v0 Lerp.v1 Lerp.v2) = some t1
      ∧ cdiv (wrapI32 (Lerp.w2 Lerp.v0 Lerp.v1 Lerp.v2 127 230 * 255))
          (Lerp.denom Lerp.v0 Lerp.v1 Lerp.v2) = some t2
      ∧ 0 ≤ t1 ∧ t1 ≤ 255 ∧ 0 ≤ t2 ∧ t2 ≤ 255 ∧ t1 + t2 ≤ 255
      ∧ (castU8OfInt t1 : Int) = t1 ∧ (castU8OfInt t2 : Int) = t2 :=
  blend_factors_in_range Lerp.v0 Lerp.v1 Lerp.v2 127 230 (by decide) (by decide) (by decide)
    (by decide) (by decide) (by decide) (by decide) (by decide) (by decide)

/-! ## Triangle scene in the build without `TEST` -/

theorem charToWord_lt (s : Bool) (r : Nat) : charToWord s r < 4294967296 := by
  unfold charToWord
  cases s
  · simp only [Bool.false_eq_true, if_false]
    unfold castU8
    omega
  · simp only [if_true]
    omega

/-- In the build without `TEST` every pixel of the configured triangle has a word, and the
word of a pixel that passes the inside test is the 8-bit value returned by the second blend:
below 256, or a sign extension. -/
theorem triangle_asm_pixel_shape (s : Bool) (instr : Nat → Nat → Nat → Nat) (x y : Int) :
    ∃ w, Lerp.scenePixelAsm s instr x y = some w
      ∧ (Lerp.insideAt Lerp.v0 Lerp.v1 Lerp.v2 x y = true →
          w < 256 ∨ (4294967168 ≤ w ∧ w < 4294967296)) := by
  unfold Lerp.scenePixelAsm Lerp.trianglePixelAsm
  rw [triangle_denom_configured]
  by_cases hin : Lerp.insideAt Lerp.v0 Lerp.v1 Lerp.v2 x y = true
  · rw [if_pos hin, cdiv_of_ne _ (-42025) (by norm_num) (by norm_num),
      cdiv_of_ne _ (-42025) (by norm_num) (by norm_num)]
    refine ⟨_, rfl, fun _ => ?_⟩
    unfold lerp_vec4_u8_asm
    rcases charToWord_shape s (instr _ _ _) with h | h
    · exact Or.inl h
    · exact Or.inr ⟨h, charToWord_lt s _⟩
  · rw [if_neg hin]
    exact ⟨_, rfl, fun h => absurd h hin⟩

/-- The triangle program as configured fills the framebuffer: `mainAsm` has a value, and the
slot of every pixel of the loops holds the word of that pixel. -/
theorem triangle_asm_main_spec (s : Bool) (instr : Nat → Nat → Nat → Nat) :
    ∃ buf, Lerp.mainAsm s instr = some buf ∧ ∀ x y, 0 ≤ x → x < 256 → 0 ≤ y → y < 256 →
      Lerp.scenePixelAsm s instr x y = some (buf (Lerp.slot x y)) := by
  have eH : Lerp.HEIGHT = 256 := rfl
  have eW : Lerp.WIDTH = 256 := rfl
  have h := renderLoops_spec (Lerp.HEIGHT * Lerp.WIDTH)
    (fun y x => Lerp.scenePixelAsm s instr x y)
    (fun y x => Lerp.slot x y) 0 Lerp.HEIGHT 0 Lerp.WIDTH (fun _ => 0)
    (by rw [eH]; norm_num) (by rw [eW]; norm_num)
    (fun y x _ _ _ _ => by
      obtain ⟨w, hw, _⟩ := triangle_asm_pixel_shape s instr x y
      exact ⟨w, hw⟩)
    (fun y x h1 h2 h3 h4 => by
      rw [eH] at h2; rw [eW] at h4
      exact triangle_slot_range x y h3 h4 h1 h2)
    (fun y x v u _ _ h3 h4 _ _ h7 h8 he => by
      rw [eW] at h4 h8
      have := triangle_slot_injective x y u v h3 h4 h7 h8 he
      exact ⟨this.2, this.1⟩)
  obtain ⟨buf, hb, hpix⟩ := h
  refine ⟨buf, ?_, ?_⟩
  · unfold Lerp.mainAsm
    exact hb
  · intro x y h1 h2 h3 h4
    exact hpix y x h3 (by rw [eH]; exact h4) h1 (by rw [eW]; exact h2)

/-- A word below 256, or a sign extension of a negative 8-bit value, is not a blend of red
and green only: its X channel is 0, or its Z channel is 255. -/
theorem eight_bit_word_not_red_green (w : Nat)
    (h : w < 256 ∨ (4294967168 ≤ w ∧ w < 4294967296)) :
    ¬ (Lerp.VEC_Z w = 0 ∧ Lerp.VEC_X w ≠ 0 ∧ Lerp.VEC_Y w ≠ 0) := by
  have hx : Lerp.VEC_X w = w / 16777216 := VEC4_X_eq w
  have hz : Lerp.VEC_Z w = w / 256 % 256 := VEC4_Z_eq w
  rintro ⟨h1, h2, _⟩
  rcases h with h | h
  · exact h2 (by omega)
  · omega

/-- C7, evaluated on the program as configured: `rasterizer_lerp.c` leaves `TEST` undefined,
so `main` blends through the inline-asm branch, which returns the 8-bit variable `t`.
Whatever the instruction computes and whatever the signedness of `char`, the pixel
`(127, 230)` passes the inside test and the word that the framebuffer holds there is below
256 or a sign extension, so it does not have blue channel 0 together with non-zero red and
green channels. -/
theorem triangle_midpoint_as_configured (s : Bool) (instr : Nat → Nat → Nat → Nat) :
    ∃ buf, Lerp.mainAsm s instr = some buf
      ∧ Lerp.insideAt Lerp.v0 Lerp.v1 Lerp.v2 127 230 = true
      ∧ (buf (Lerp.slot 127 230) < 256
          ∨ (4294967168 ≤ buf (Lerp.slot 127 230) ∧ buf (Lerp.slot 127 230) < 4294967296))
      ∧ ¬ (Lerp.VEC_Z (buf (Lerp.slot 127 230)) = 0
          ∧ Lerp.VEC_X (buf (Lerp.slot 127 230)) ≠ 0
          ∧ Lerp.VEC_Y (buf (Lerp.slot 127 230)) ≠ 0) := by
  obtain ⟨buf, hb, hp⟩ := triangle_asm_main_spec s instr
  have h := hp 127 230 (by norm_num) (by norm_num) (by norm_num) (by norm_num)
  have hin : Lerp.insideAt Lerp.v0 Lerp.v1 Lerp.v2 127 230 = true := by decide
  obtain ⟨w, hw, hshape⟩ := triangle_asm_pixel_shape s instr 127 230
  rw [hw] at h
  have e : w = buf (Lerp.slot 127 230) := Option.some.inj h
  have hs := hshape hin
  rw [e] at hs
  exact ⟨buf, hb, hin, hs, eight_bit_word_not_red_green _ hs⟩

end Raster
